import Mathlib

/-!
# Verification of the MM-Mocap multi-camera pipeline

Shallow embedding of the pure computational core of the MM-Mocap repository:

* the alignment engine of `gopro_sync.py` (`compute_alignment`, the
  no-overlap gate in `main`, `parse_framerate`, `parse_timecode_to_seconds`,
  `discover_videos`);
* the temporal clustering engines of
  `04.copy_last_to_pc_and_scene_sorting.py` (take policy) and
  `04.copy_to_pc_and_scene_sorting.py` (scene policy);
* the grid planners of `gopro_sync.py` (dynamic) and `06.gopro_sync.py`
  (fixed 3×3).

Python floats on the values manipulated here (seconds, frame rates) are
modelled as rationals; timestamps (integer epoch seconds) as integers.
-/

namespace MMMocap

/-! ## Fold helpers

Python's `max(...)`/`min(...)` builtins over a non-empty iterable are a left
fold starting from the first element. -/

theorem le_foldl_max {α : Type} [LinearOrder α] (init : α) (l : List α) :
    init ≤ l.foldl max init := by
  induction l generalizing init with
  | nil => exact le_refl _
  | cons a l ih => exact le_trans (le_max_left init a) (ih (max init a))

theorem mem_le_foldl_max {α : Type} [LinearOrder α] (init : α) (l : List α) :
    ∀ x ∈ l, x ≤ l.foldl max init := by
  induction l generalizing init with
  | nil => intro x hx; cases hx
  | cons a l ih =>
    intro x hx
    rcases List.mem_cons.mp hx with h | h
    · subst h
      exact le_trans (le_max_right init x) (le_foldl_max (max init x) l)
    · exact ih (max init a) x h

theorem foldl_max_mem {α : Type} [LinearOrder α] (init : α) (l : List α) :
    l.foldl max init ∈ init :: l := by
  induction l generalizing init with
  | nil => exact List.mem_singleton.mpr rfl
  | cons a l ih =>
    have h := ih (max init a)
    rw [List.foldl_cons]
    rcases List.mem_cons.mp h with h | h
    · rcases max_choice init a with hc | hc
      · rw [h, hc]; exact List.mem_cons_self _ _
      · rw [h, hc]; exact List.mem_cons_of_mem _ (List.mem_cons_self _ _)
    · exact List.mem_cons_of_mem _ (List.mem_cons_of_mem _ h)

theorem foldl_min_le_init {α : Type} [LinearOrder α] (init : α) (l : List α) :
    l.foldl min init ≤ init := by
  induction l generalizing init with
  | nil => exact le_refl _
  | cons a l ih => exact le_trans (ih (min init a)) (min_le_left init a)

theorem foldl_min_le_mem {α : Type} [LinearOrder α] (init : α) (l : List α) :
    ∀ x ∈ l, l.foldl min init ≤ x := by
  induction l generalizing init with
  | nil => intro x hx; cases hx
  | cons a l ih =>
    intro x hx
    rcases List.mem_cons.mp hx with h | h
    · subst h
      exact le_trans (foldl_min_le_init (min init x) l) (min_le_right init x)
    · exact ih (min init a) x h

theorem foldl_min_mem {α : Type} [LinearOrder α] (init : α) (l : List α) :
    l.foldl min init ∈ init :: l := by
  induction l generalizing init with
  | nil => exact List.mem_singleton.mpr rfl
  | cons a l ih =>
    have h := ih (min init a)
    rw [List.foldl_cons]
    rcases List.mem_cons.mp h with h | h
    · rcases min_choice init a with hc | hc
      · rw [h, hc]; exact List.mem_cons_self _ _
      · rw [h, hc]; exact List.mem_cons_of_mem _ (List.mem_cons_self _ _)
    · exact List.mem_cons_of_mem _ (List.mem_cons_of_mem _ h)

/-! ## Alignment engine — `compute_alignment` (gopro_sync.py lines 119–145)

Each input file contributes a start instant (seconds decoded from its
embedded timecode) and a duration (seconds).  `compute_alignment` takes the
maximum start, derives per-file front trims and effective durations, and the
common overlap is the minimum effective duration.  Python raises on
`max(empty)`, modelled by `Option`. -/

structure FileMeta where
  start : ℚ
  duration : ℚ
deriving DecidableEq

def computeAlignment (files : List FileMeta) : Option (List ℚ × ℚ) :=
  match files with
  | [] => none
  | f0 :: rest =>
    let latest : ℚ := (rest.map FileMeta.start).foldl max f0.start
    let trims : List ℚ := (f0 :: rest).map fun f => max 0 (latest - f.start)
    let effective : List ℚ :=
      List.zipWith (fun (f : FileMeta) (t : ℚ) => max 0 (f.duration - t)) (f0 :: rest) trims
    let common : ℚ :=
      match effective with
      | [] => 0
      | e :: es => es.foldl min e
    some (trims, common)

/-- The outcome of the post-alignment part of `main` (gopro_sync.py lines
269–279): when the common overlap is ≤ 0 the run stops with no outputs;
otherwise one synced clip per input is written, front-trimmed by that file's
trim and truncated to the common duration. -/
inductive SyncOutcome where
  | noOverlap : SyncOutcome
  | synced : List (ℚ × ℚ) → SyncOutcome
deriving DecidableEq

def mainSync (files : List FileMeta) : Option SyncOutcome :=
  match computeAlignment files with
  | none => none
  | some (trims, common) =>
    if common ≤ 0 then some SyncOutcome.noOverlap
    else some (SyncOutcome.synced (trims.map fun t => (t, common)))

theorem computeAlignment_cons (f0 : FileMeta) (rest : List FileMeta) :
    computeAlignment (f0 :: rest) =
      some ((f0 :: rest).map
              (fun f => max 0 (((rest.map FileMeta.start).foldl max f0.start) - f.start)),
            ((rest.map fun f =>
                max 0 (f.duration - max 0 (((rest.map FileMeta.start).foldl max f0.start) - f.start))).foldl
              min
              (max 0 (f0.duration -
                max 0 (((rest.map FileMeta.start).foldl max f0.start) - f0.start))))) := by
  simp only [computeAlignment, List.map_cons, List.zipWith_cons_cons,
    List.zipWith_map_right, List.zipWith_same]

/-- **C1.** For every non-empty list of input files, `compute_alignment` sets
`latest_start` to the maximum of all start seconds, each file's trim to
`max(0, latest_start − start)`, each effective duration to
`max(0, duration − trim)`, and the common duration to the minimum effective
duration. -/
theorem compute_alignment_spec (files : List FileMeta) (h : files ≠ []) :
    ∃ latest trims common,
      computeAlignment files = some (trims, common) ∧
      latest ∈ files.map FileMeta.start ∧
      (∀ s ∈ files.map FileMeta.start, s ≤ latest) ∧
      trims = files.map (fun f => max 0 (latest - f.start)) ∧
      common ∈ files.map (fun f => max 0 (f.duration - max 0 (latest - f.start))) ∧
      (∀ e ∈ files.map (fun f => max 0 (f.duration - max 0 (latest - f.start))),
        common ≤ e) := by
  match files with
  | [] => exact absurd rfl h
  | f0 :: rest =>
    refine ⟨(rest.map FileMeta.start).foldl max f0.start, _, _,
      computeAlignment_cons f0 rest, ?_, ?_, rfl, ?_, ?_⟩
    · rw [List.map_cons]
      exact foldl_max_mem f0.start (rest.map FileMeta.start)
    · intro s hs
      rw [List.map_cons] at hs
      rcases List.mem_cons.mp hs with hs | hs
      · subst hs; exact le_foldl_max _ _
      · exact mem_le_foldl_max _ _ s hs
    · rw [List.map_cons]
      exact foldl_min_mem _ _
    · intro e he
      rw [List.map_cons] at he
      rcases List.mem_cons.mp he with he | he
      · subst he; exact foldl_min_le_init _ _
      · exact foldl_min_le_mem _ _ e he

/-- Witness for C1 at the spec's example: starts `{0, 2, 0.5}` and durations
`{10, 10, 10}` give `latest_start = 2`, trims `{2, 0, 1.5}`, common
duration `8`. -/
theorem compute_alignment_spec_example :
    (([⟨0, 10⟩, ⟨2, 10⟩, ⟨1/2, 10⟩] : List FileMeta) ≠ []) ∧
    (∃ latest trims common,
      computeAlignment [⟨0, 10⟩, ⟨2, 10⟩, ⟨1/2, 10⟩] = some (trims, common) ∧
      latest ∈ ([⟨0, 10⟩, ⟨2, 10⟩, ⟨1/2, 10⟩] : List FileMeta).map FileMeta.start ∧
      (∀ s ∈ ([⟨0, 10⟩, ⟨2, 10⟩, ⟨1/2, 10⟩] : List FileMeta).map FileMeta.start,
        s ≤ latest) ∧
      trims = ([⟨0, 10⟩, ⟨2, 10⟩, ⟨1/2, 10⟩] : List FileMeta).map
        (fun f => max 0 (latest - f.start)) ∧
      common ∈ ([⟨0, 10⟩, ⟨2, 10⟩, ⟨1/2, 10⟩] : List FileMeta).map
        (fun f => max 0 (f.duration - max 0 (latest - f.start))) ∧
      (∀ e ∈ ([⟨0, 10⟩, ⟨2, 10⟩, ⟨1/2, 10⟩] : List FileMeta).map
        (fun f => max 0 (f.duration - max 0 (latest - f.start))), common ≤ e)) ∧
    computeAlignment [⟨0, 10⟩, ⟨2, 10⟩, ⟨1/2, 10⟩] = some ([2, 0, 3/2], 8) :=
  ⟨by decide, compute_alignment_spec _ (by decide), by
    rw [computeAlignment_cons]
    norm_num [List.foldl]⟩

/-- **C2.** Whenever the computed common duration is ≤ 0, the run stops with
the no-overlap outcome and no synced output is produced. -/
theorem main_noOverlap (files : List FileMeta) (trims : List ℚ) (common : ℚ)
    (hal : computeAlignment files = some (trims, common)) (hc : common ≤ 0) :
    mainSync files = some SyncOutcome.noOverlap := by
  unfold mainSync
  rw [hal]
  exact if_pos hc

/-- Witness for C2 at the spec's example: durations `{3, 1}` with starts
`{0, 5}` give trims `{5, 0}`, effective durations `{0, 1}`, common duration
`0`, and the no-overlap outcome. -/
theorem main_noOverlap_example :
    computeAlignment [⟨0, 3⟩, ⟨5, 1⟩] = some ([5, 0], (0 : ℚ)) ∧
    ((0 : ℚ) ≤ 0) ∧
    mainSync [⟨0, 3⟩, ⟨5, 1⟩] = some SyncOutcome.noOverlap := by
  have h : computeAlignment [⟨0, 3⟩, ⟨5, 1⟩] = some ([5, 0], (0 : ℚ)) := by
    rw [computeAlignment_cons]
    norm_num [List.foldl]
  exact ⟨h, le_refl 0, main_noOverlap _ _ _ h (le_refl 0)⟩

/-! ## Metadata parsers (gopro_sync.py lines 50–76)

`parse_framerate` and `parse_timecode_to_seconds` work on strings coming out
of container metadata.  Python's `str.split` is `splitListOn`; `int(s)` and
`float(s)` are modelled for whitespace-free inputs as an optional sign
followed by digits (`pyIntChars`) resp. digits with an optional decimal
point (`pyFloatChars`); a parse failure (Python exception) is `none`.
Python raises `ZeroDivisionError` on float division by zero, so the one
place a division can be reached with a zero divisor returns `none`. -/

def digitsVal (cs : List Char) : Nat :=
  cs.foldl (fun a c => a * 10 + (c.toNat - 48)) 0

def splitListOn (sep : Char) : List Char → List (List Char)
  | [] => [[]]
  | c :: cs =>
    if c = sep then [] :: splitListOn sep cs
    else
      match splitListOn sep cs with
      | [] => [[c]]
      | h :: t => (c :: h) :: t

def pyIntChars (cs : List Char) : Option Int :=
  match cs with
  | [] => none
  | '-' :: rest =>
    if rest ≠ [] ∧ rest.all Char.isDigit then some (-(digitsVal rest : Int)) else none
  | '+' :: rest =>
    if rest ≠ [] ∧ rest.all Char.isDigit then some ((digitsVal rest : Int)) else none
  | _ =>
    if cs.all Char.isDigit then some ((digitsVal cs : Int)) else none

def pyUnsignedFloat (cs : List Char) : Option ℚ :=
  match splitListOn '.' cs with
  | [ip] => if ip ≠ [] ∧ ip.all Char.isDigit then some (digitsVal ip : ℚ) else none
  | [ip, fp] =>
    if (ip ≠ [] ∨ fp ≠ []) ∧ ip.all Char.isDigit ∧ fp.all Char.isDigit then
      some ((digitsVal ip : ℚ) + (digitsVal fp : ℚ) / 10 ^ fp.length)
    else none
  | _ => none

def pyFloatChars (cs : List Char) : Option ℚ :=
  match cs with
  | [] => none
  | '-' :: rest => (pyUnsignedFloat rest).map (fun q => -q)
  | '+' :: rest => pyUnsignedFloat rest
  | _ => pyUnsignedFloat cs

/-- `parse_framerate` (gopro_sync.py lines 50–59).  `none` models Python's
`None`; an empty string is falsy in Python so it takes the same early-out. -/
def parse_framerate : Option String → ℚ
  | none => 30
  | some s =>
    if s = "" ∨ s = "0/0" then 30
    else
      match splitListOn '/' s.toList with
      | [ns, ds] =>
        match pyFloatChars ns, pyFloatChars ds with
        | some n, some d => if d ≠ 0 then n / d else 30
        | _, _ => 30
      | _ => 30

/-- `parse_timecode_to_seconds` (gopro_sync.py lines 62–76).  Drop-frame
separators `';'` are first replaced by `':'`.  A 4-field split parses as
`H:M:S:F`; on failure, a 3-field split parses as `H:M:S` with `F = 0`
(an `int` failure there propagates, hence `none`); any other shape returns
`0.0`.  Both return paths divide by `fps`, so `fps = 0` raises (`none`). -/
def parse_timecode_to_seconds : Option String → ℚ → Option ℚ
  | none, _ => some 0
  | some s, fps =>
    if s = "" then some 0
    else
      match splitListOn ':' (s.toList.map fun c => if c = ';' then ':' else c) with
      | [a, b, c, d] =>
        match pyIntChars a, pyIntChars b, pyIntChars c, pyIntChars d with
        | some h, some m, some sec, some f =>
          if fps = 0 then none
          else some (((h : ℚ) * 3600 + (m : ℚ) * 60 + (sec : ℚ)) + (f : ℚ) / fps)
        | _, _, _, _ => some 0
      | [a, b, c] =>
        match pyIntChars a, pyIntChars b, pyIntChars c with
        | some h, some m, some sec =>
          if fps = 0 then none
          else some (((h : ℚ) * 3600 + (m : ℚ) * 60 + (sec : ℚ)) + (0 : ℚ) / fps)
        | _, _, _ => none
      | _ => some 0

/-- **C7.** For every timecode string in `HH:MM:SS:FF` form (with `';'`
separators treated like `':'` and a missing frame field defaulting to 0) and
a nonzero frame rate, the start-seconds conversion returns
`H*3600 + M*60 + S + F/fps`; the frame rate defaults to 30 when missing or
`0/0`. -/
theorem timecode_conversion (fps : ℚ) (hfps : fps ≠ 0) :
    (∀ (s : String) (pa pb pc pd : List Char) (hv mv sv fv : Int),
      s ≠ "" →
      splitListOn ':' (s.toList.map fun c => if c = ';' then ':' else c) = [pa, pb, pc, pd] →
      pyIntChars pa = some hv → pyIntChars pb = some mv → pyIntChars pc = some sv →
      pyIntChars pd = some fv →
      parse_timecode_to_seconds (some s) fps
        = some (((hv : ℚ) * 3600 + (mv : ℚ) * 60 + (sv : ℚ)) + (fv : ℚ) / fps)) ∧
    (∀ (s : String) (pa pb pc : List Char) (hv mv sv : Int),
      s ≠ "" →
      splitListOn ':' (s.toList.map fun c => if c = ';' then ':' else c) = [pa, pb, pc] →
      pyIntChars pa = some hv → pyIntChars pb = some mv → pyIntChars pc = some sv →
      parse_timecode_to_seconds (some s) fps
        = some (((hv : ℚ) * 3600 + (mv : ℚ) * 60 + (sv : ℚ)) + (0 : ℚ) / fps)) ∧
    parse_framerate none = 30 ∧ parse_framerate (some "0/0") = 30 := by
  refine ⟨?_, ?_, rfl, rfl⟩
  · intro s pa pb pc pd hv mv sv fv hs hsplit ha hb hc hd
    have hsplit2 : splitListOn ':' (List.map (fun c => if c = ';' then ':' else c) s.data)
        = [pa, pb, pc, pd] := hsplit
    simp [parse_timecode_to_seconds, hs, hsplit2, ha, hb, hc, hd, hfps]
  · intro s pa pb pc hv mv sv hs hsplit ha hb hc
    have hsplit2 : splitListOn ':' (List.map (fun c => if c = ';' then ':' else c) s.data)
        = [pa, pb, pc] := hsplit
    simp [parse_timecode_to_seconds, hs, hsplit2, ha, hb, hc, hfps]

/-- Witness for C7: `"01:02:03:15"` at 30 fps, and the drop-frame 3-field
form `"04;05;06"` whose frame count defaults to 0. -/
theorem timecode_conversion_example :
    ((30 : ℚ) ≠ 0) ∧
    parse_timecode_to_seconds (some "01:02:03:15") 30
      = some (((1 : ℚ) * 3600 + (2 : ℚ) * 60 + (3 : ℚ)) + (15 : ℚ) / 30) ∧
    parse_timecode_to_seconds (some "04;05;06") 30
      = some (((4 : ℚ) * 3600 + (5 : ℚ) * 60 + (6 : ℚ)) + (0 : ℚ) / 30) := by
  have hfps : (30 : ℚ) ≠ 0 := by norm_num
  obtain ⟨h4, h3, -, -⟩ := timecode_conversion 30 hfps
  refine ⟨hfps, ?_, ?_⟩
  · exact h4 "01:02:03:15" ['0', '1'] ['0', '2'] ['0', '3'] ['1', '5'] 1 2 3 15
      (by decide) (by decide) (by decide) (by decide) (by decide) (by decide)
  · exact h3 "04;05;06" ['0', '4'] ['0', '5'] ['0', '6'] 4 5 6
      (by decide) (by decide) (by decide) (by decide) (by decide)

/-- **C9 (amended).** The frame-rate parser is total: it either takes a
failure path and returns the default 30, or the input splits on `'/'` into
exactly two float-parsable pieces with a nonzero denominator and the result
is their quotient — the division is performed only when the denominator is
nonzero.  (The result need not be positive: see
`parse_framerate_not_positive`.) -/
theorem parse_framerate_total (r : Option String) :
    parse_framerate r = 30 ∨
    ∃ s ns ds n d, r = some s ∧ splitListOn '/' s.toList = [ns, ds] ∧
      pyFloatChars ns = some n ∧ pyFloatChars ds = some d ∧ d ≠ 0 ∧
      parse_framerate r = n / d := by
  match r with
  | none => exact Or.inl rfl
  | some s =>
    by_cases hs : s = "" ∨ s = "0/0"
    · left; simp [parse_framerate, hs]
    · rcases hsp : splitListOn '/' s.toList with _ | ⟨ns, rest1⟩
      · left
        have hsp2 : splitListOn '/' s.data = [] := hsp
        simp [parse_framerate, hs, hsp2]
      · rcases rest1 with _ | ⟨ds, rest2⟩
        · left
          have hsp2 : splitListOn '/' s.data = [ns] := hsp
          simp [parse_framerate, hs, hsp2]
        · rcases rest2 with _ | ⟨x, rest3⟩
          · rcases hn : pyFloatChars ns with _ | n
            · left
              have hsp2 : splitListOn '/' s.data = [ns, ds] := hsp
              simp [parse_framerate, hs, hsp2, hn]
            · rcases hd : pyFloatChars ds with _ | d
              · left
                have hsp2 : splitListOn '/' s.data = [ns, ds] := hsp
                simp [parse_framerate, hs, hsp2, hn, hd]
              · by_cases hdz : d = 0
                · left
                  have hsp2 : splitListOn '/' s.data = [ns, ds] := hsp
                  simp [parse_framerate, hs, hsp2, hn, hd, hdz]
                · right
                  refine ⟨s, ns, ds, n, d, rfl, hsp, hn, hd, hdz, ?_⟩
                  have hsp2 : splitListOn '/' s.data = [ns, ds] := hsp
                  simp [parse_framerate, hs, hsp2, hn, hd, hdz]
          · left
            have hsp2 : splitListOn '/' s.data = ns :: ds :: x :: rest3 := hsp
            simp [parse_framerate, hs, hsp2]

/-- Counterexample to C9 as stated: the frame rate string `"0/1"` parses to
`0/1 = 0`, which is not positive — the parser does not always return a
positive value. -/
theorem parse_framerate_not_positive :
    parse_framerate (some "0/1") = 0 ∧ ¬ (0 < parse_framerate (some "0/1")) := by
  have h : parse_framerate (some "0/1") = 0 := by
    simp [parse_framerate, splitListOn, pyFloatChars, pyUnsignedFloat, digitsVal]
  exact ⟨h, by rw [h]; norm_num⟩

/-! ## Temporal clustering

`04.copy_last_to_pc_and_scene_sorting.py` (take policy) and
`04.copy_to_pc_and_scene_sorting.py` (scene policy) both work on flat media
records carrying a camera serial and an integer creation timestamp
(`datetime.fromtimestamp(int(file["cre"]))`); time differences are compared
in whole seconds.  Python's stable `list.sort` is modelled by insertion
sort. -/

structure MediaRecord where
  serial : String
  time : ℤ
deriving DecidableEq

def descByTime (a b : MediaRecord) : Prop := b.time ≤ a.time

def ascByTime (a b : MediaRecord) : Prop := a.time ≤ b.time

instance : DecidableRel descByTime :=
  fun a b => inferInstanceAs (Decidable (b.time ≤ a.time))

instance : DecidableRel ascByTime :=
  fun a b => inferInstanceAs (Decidable (a.time ≤ b.time))

instance : IsTotal MediaRecord descByTime := ⟨fun a b => le_total b.time a.time⟩

instance : IsTrans MediaRecord descByTime := ⟨fun _ _ _ h1 h2 => le_trans h2 h1⟩

instance : IsTotal MediaRecord ascByTime := ⟨fun a b => le_total a.time b.time⟩

instance : IsTrans MediaRecord ascByTime := ⟨fun _ _ _ h1 h2 => le_trans h1 h2⟩

/-! ### Take policy (04.copy_last_to_pc_and_scene_sorting.py lines 61–108)

Records are grouped by serial into a dict (insertion-ordered keys, files
appended in catalog order), each camera's list is sorted newest-first, the
global latest head time is taken, and one record per camera is selected:
the closest to the global latest among those within 5 seconds of it, else
the camera's own most recent record with a substitution flag. -/

def addToGroups : List (String × List MediaRecord) → MediaRecord →
    List (String × List MediaRecord)
  | [], r => [(r.serial, [r])]
  | (k, fs) :: rest, r =>
    if k = r.serial then (k, fs ++ [r]) :: rest
    else (k, fs) :: addToGroups rest r

def groupByAux (acc : List (String × List MediaRecord)) :
    List MediaRecord → List (String × List MediaRecord)
  | [] => acc
  | r :: rs => groupByAux (addToGroups acc r) rs

def groupBySerial (records : List MediaRecord) : List (String × List MediaRecord) :=
  groupByAux [] records

def sortedGroups (records : List MediaRecord) : List (String × List MediaRecord) :=
  (groupBySerial records).map fun g => (g.1, List.insertionSort descByTime g.2)

/-- The `latest_time` loop (lines 75–81): fold over the camera groups,
taking each camera's newest file (the head of its descending-sorted list)
when the running value is `None` or strictly smaller. -/
def globalLatestAux (acc : Option ℤ) : List (String × List MediaRecord) → Option ℤ
  | [] => acc
  | (_, files) :: rest =>
    globalLatestAux
      (match files.head? with
       | none => acc
       | some f =>
         match acc with
         | none => some f.time
         | some t => if f.time > t then some f.time else acc)
      rest

/-- The closest-file loop (lines 94–100): running best `(file, diff)`,
updated when `diff ≤ 5` and strictly smaller than the best so far
(initially infinite). -/
def findClosestAux (latest : ℤ) (best : Option (MediaRecord × ℤ)) :
    List MediaRecord → Option (MediaRecord × ℤ)
  | [] => best
  | f :: fs =>
    findClosestAux latest
      (match best with
       | none => if |f.time - latest| ≤ 5 then some (f, |f.time - latest|) else none
       | some (b, bd) =>
         if |f.time - latest| ≤ 5 ∧ |f.time - latest| < bd then some (f, |f.time - latest|)
         else some (b, bd))
      fs

def findClosest (latest : ℤ) (files : List MediaRecord) : Option MediaRecord :=
  (findClosestAux latest none files).map Prod.fst

/-- Lines 90–108: one selection per camera; the `Bool` is the
"no file within 5 seconds, using latest file" substitution flag. -/
def buildTake (latest : ℤ) : List (String × List MediaRecord) →
    List (MediaRecord × Bool)
  | [] => []
  | g :: gs =>
    match g.2 with
    | [] => buildTake latest gs
    | h :: tl =>
      match findClosest latest (h :: tl) with
      | some c => (c, false) :: buildTake latest gs
      | none => (h, true) :: buildTake latest gs

def takePolicy (records : List MediaRecord) : List (MediaRecord × Bool) :=
  match globalLatestAux none (sortedGroups records) with
  | none => []
  | some latest => buildTake latest (sortedGroups records)

/-! ### Scene policy (04.copy_to_pc_and_scene_sorting.py lines 61–73)

All records are sorted ascending by creation time and greedily assigned to
the first open scene whose first member's time is within 5 seconds, else a
new scene is appended. -/

structure Scene where
  first : MediaRecord
  rest : List MediaRecord
deriving DecidableEq

def Scene.members (s : Scene) : List MediaRecord := s.first :: s.rest

def insertRecord (tol : ℤ) (f : MediaRecord) : List Scene → List Scene
  | [] => [⟨f, []⟩]
  | s :: ss =>
    if |f.time - s.first.time| ≤ tol then ⟨s.first, s.rest ++ [f]⟩ :: ss
    else s :: insertRecord tol f ss

def assignAux (tol : ℤ) (scenes : List Scene) : List MediaRecord → List Scene
  | [] => scenes
  | r :: rs => assignAux tol (insertRecord tol r scenes) rs

def scenePolicy (records : List MediaRecord) : List Scene :=
  assignAux 5 [] (List.insertionSort ascByTime records)

/-! ### Scene-policy invariants

Processed in ascending time order, every member of a scene lies in the
window `[first.time, first.time + tol]`: the reference is the earliest
member, and everything admitted is within `tol` above it.  Hence any two
members of one scene differ by at most `tol` — but two records within `tol`
of each other can still land in different scenes (see
`scene_adjacent_records_split`). -/

def SceneInv (tol : ℤ) (s : Scene) : Prop :=
  ∀ m ∈ s.members, s.first.time ≤ m.time ∧ m.time ≤ s.first.time + tol

theorem insertRecord_firsts (tol : ℤ) (f : MediaRecord) :
    ∀ (scenes : List Scene) (s' : Scene), s' ∈ insertRecord tol f scenes →
      s'.first ∈ scenes.map Scene.first ∨ s'.first = f := by
  intro scenes
  induction scenes with
  | nil =>
    intro s' hs'
    simp only [insertRecord, List.mem_singleton] at hs'
    right; rw [hs']
  | cons s ss ih =>
    intro s' hs'
    simp only [insertRecord] at hs'
    by_cases h : |f.time - s.first.time| ≤ tol
    · rw [if_pos h] at hs'
      rcases List.mem_cons.mp hs' with h1 | h1
      · left; rw [h1]; exact List.mem_cons_self _ _
      · left; exact List.mem_cons_of_mem _ (List.mem_map_of_mem Scene.first h1)
    · rw [if_neg h] at hs'
      rcases List.mem_cons.mp hs' with h1 | h1
      · left; rw [h1]; exact List.mem_cons_self _ _
      · rcases ih s' h1 with h2 | h2
        · left; exact List.mem_cons_of_mem _ h2
        · right; exact h2

theorem insertRecord_inv (tol : ℤ) (htol : 0 ≤ tol) (f : MediaRecord) :
    ∀ (scenes : List Scene),
      (∀ s ∈ scenes, SceneInv tol s) →
      (∀ s ∈ scenes, s.first.time ≤ f.time) →
      ∀ s' ∈ insertRecord tol f scenes, SceneInv tol s' := by
  intro scenes
  induction scenes with
  | nil =>
    intro _ _ s' hs'
    simp only [insertRecord, List.mem_singleton] at hs'
    subst hs'
    intro m hm
    simp only [Scene.members, List.mem_singleton] at hm
    have hm' : m.time = f.time := by rw [hm]
    dsimp only
    omega
  | cons s ss ih =>
    intro hinv hle s' hs'
    simp only [insertRecord] at hs'
    by_cases h : |f.time - s.first.time| ≤ tol
    · rw [if_pos h] at hs'
      rcases List.mem_cons.mp hs' with h1 | h1
      · subst h1
        intro m hm
        simp only [Scene.members, List.mem_cons, List.mem_append,
          List.mem_singleton] at hm
        rcases hm with h2 | h3 | h4 | h5
        · have h2' : m.time = s.first.time := by rw [h2]
          dsimp only
          omega
        · exact hinv s (List.mem_cons_self _ _) m
            (List.mem_cons_of_mem _ h3)
        · have h4' : m.time = f.time := by rw [h4]
          have h5 := abs_sub_le_iff.mp h
          have h6 := hle s (List.mem_cons_self _ _)
          dsimp only
          omega
        · exact absurd h5 (List.not_mem_nil _)
      · exact hinv s' (List.mem_cons_of_mem _ h1)
    · rw [if_neg h] at hs'
      rcases List.mem_cons.mp hs' with h1 | h1
      · subst h1; exact hinv s' (List.mem_cons_self _ _)
      · exact ih (fun t ht => hinv t (List.mem_cons_of_mem _ ht))
          (fun t ht => hle t (List.mem_cons_of_mem _ ht)) s' h1

theorem assignAux_inv (tol : ℤ) (htol : 0 ≤ tol) :
    ∀ (rs : List MediaRecord) (scenes : List Scene),
      List.Sorted ascByTime rs →
      (∀ s ∈ scenes, SceneInv tol s) →
      (∀ s ∈ scenes, ∀ r ∈ rs, s.first.time ≤ r.time) →
      ∀ s ∈ assignAux tol scenes rs, SceneInv tol s := by
  intro rs
  induction rs with
  | nil => intro scenes _ hinv _ s hs; exact hinv s hs
  | cons r rs ih =>
    intro scenes hsort hinv hle s hs
    rw [List.sorted_cons] at hsort
    simp only [assignAux] at hs
    refine ih (insertRecord tol r scenes) hsort.2 ?_ ?_ s hs
    · exact insertRecord_inv tol htol r scenes hinv
        (fun t ht => hle t ht r (List.mem_cons_self _ _))
    · intro t ht r' hr'
      rcases insertRecord_firsts tol r scenes t ht with h1 | h1
      · rcases List.mem_map.mp h1 with ⟨t0, ht0, hft⟩
        have h2 := hle t0 ht0 r' (List.mem_cons_of_mem _ hr')
        calc t.first.time = t0.first.time := by rw [hft]
          _ ≤ r'.time := h2
      · rw [h1]
        exact hsort.1 r' hr'

/-- **C4 (amended).** Every record lands in a scene whose reference (first
member's) time is within 5 seconds; any two members of one scene differ by
at most 5 seconds, so two records more than 5 seconds apart are never in
the same scene.  The converse direction of the claim fails: two records at
most 5 seconds apart can still end up in different scenes (see
`scene_adjacent_records_split`). -/
theorem scene_clustering (records : List MediaRecord) :
    (∀ s ∈ scenePolicy records, ∀ m ∈ s.members, |m.time - s.first.time| ≤ 5) ∧
    (∀ s ∈ scenePolicy records, ∀ a ∈ s.members, ∀ b ∈ s.members,
      |a.time - b.time| ≤ 5) ∧
    (∀ a b : MediaRecord, 5 < |a.time - b.time| →
      ∀ s ∈ scenePolicy records, ¬(a ∈ s.members ∧ b ∈ s.members)) := by
  have hinv : ∀ s ∈ scenePolicy records, SceneInv 5 s := by
    refine assignAux_inv 5 (by norm_num) _ []
      (List.sorted_insertionSort ascByTime records) ?_ ?_
    · intro s hs; cases hs
    · intro s hs; cases hs
  refine ⟨?_, ?_, ?_⟩
  · intro s hs m hm
    have h1 := hinv s hs m hm
    rw [abs_sub_le_iff]
    omega
  · intro s hs a ha b hb
    have h1 := hinv s hs a ha
    have h2 := hinv s hs b hb
    rw [abs_sub_le_iff]
    omega
  · rintro a b hab s hs ⟨ha, hb⟩
    have h1 := hinv s hs a ha
    have h2 := hinv s hs b hb
    have h3 : |a.time - b.time| ≤ 5 := by
      rw [abs_sub_le_iff]; omega
    omega

/-- Witness for C4: in the run on records at times 0, 5, 10 the records at
0 and 10 (more than 5 s apart) are not both in the first produced scene. -/
theorem scene_clustering_example :
    ¬((⟨"c", 10⟩ : MediaRecord) ∈ Scene.members ⟨⟨"a", 0⟩, [⟨"b", 5⟩]⟩ ∧
      (⟨"a", 0⟩ : MediaRecord) ∈ Scene.members ⟨⟨"a", 0⟩, [⟨"b", 5⟩]⟩) :=
  (scene_clustering [⟨"a", 0⟩, ⟨"b", 5⟩, ⟨"c", 10⟩]).2.2 ⟨"c", 10⟩ ⟨"a", 0⟩
    (by decide) ⟨⟨"a", 0⟩, [⟨"b", 5⟩]⟩ (by decide)

/-- Counterexample to C4 as stated: records at times 0, 5, 10 with
tolerance 5, processed in time order.  The records at 5 and 10 are exactly
5 seconds apart (≤ tolerance) yet end up in different scenes, because the
record at 5 joins the scene referenced at 0 and the record at 10 is beyond
that scene's reference. -/
theorem scene_adjacent_records_split :
    |(⟨"b", 5⟩ : MediaRecord).time - (⟨"c", 10⟩ : MediaRecord).time| ≤ 5 ∧
    scenePolicy [⟨"a", 0⟩, ⟨"b", 5⟩, ⟨"c", 10⟩] =
      [⟨⟨"a", 0⟩, [⟨"b", 5⟩]⟩, ⟨⟨"c", 10⟩, []⟩] ∧
    ¬ ∃ s ∈ scenePolicy [⟨"a", 0⟩, ⟨"b", 5⟩, ⟨"c", 10⟩],
        (⟨"b", 5⟩ : MediaRecord) ∈ s.members ∧
        (⟨"c", 10⟩ : MediaRecord) ∈ s.members :=
  ⟨by decide, by decide, by decide⟩

/-- **C5.** Cluster membership uses an inclusive 5-second boundary in both
policies: a record exactly 5 seconds from the scene reference joins that
scene, and one exactly 5 seconds from the global latest is accepted by the
take policy's closest-file search; any amount beyond 5 is excluded resp.
rejected (forcing the fallback). -/
theorem tolerance_boundary :
    (∀ (f : MediaRecord) (s : Scene) (ss : List Scene),
      |f.time - s.first.time| = 5 →
      insertRecord 5 f (s :: ss) = ⟨s.first, s.rest ++ [f]⟩ :: ss) ∧
    (∀ (f : MediaRecord) (s : Scene),
      5 < |f.time - s.first.time| →
      insertRecord 5 f [s] = [s, ⟨f, []⟩]) ∧
    (∀ (latest : ℤ) (f : MediaRecord),
      |f.time - latest| = 5 → findClosest latest [f] = some f) ∧
    (∀ (latest : ℤ) (f : MediaRecord),
      5 < |f.time - latest| → findClosest latest [f] = none) := by
  refine ⟨?_, ?_, ?_, ?_⟩
  · intro f s ss h
    simp only [insertRecord]
    rw [if_pos (le_of_eq h)]
  · intro f s h
    simp only [insertRecord]
    rw [if_neg (not_le.mpr h)]
  · intro latest f h
    simp only [findClosest, findClosestAux]
    rw [if_pos (le_of_eq h)]
    rfl
  · intro latest f h
    simp only [findClosest, findClosestAux]
    rw [if_neg (not_le.mpr h)]
    rfl

/-- Witness for C5: reference at time 0; a record at time 5 (exactly the
tolerance) is included by both policies, a record at time 6 is excluded by
both. -/
theorem tolerance_boundary_example :
    insertRecord 5 ⟨"b", 5⟩ [⟨⟨"r", 0⟩, []⟩] = [⟨⟨"r", 0⟩, [⟨"b", 5⟩]⟩] ∧
    insertRecord 5 ⟨"b", 6⟩ [⟨⟨"r", 0⟩, []⟩] = [⟨⟨"r", 0⟩, []⟩, ⟨⟨"b", 6⟩, []⟩] ∧
    findClosest 0 [⟨"b", 5⟩] = some ⟨"b", 5⟩ ∧
    findClosest 0 [⟨"b", 6⟩] = none := by
  obtain ⟨h1, h2, h3, h4⟩ := tolerance_boundary
  exact ⟨h1 ⟨"b", 5⟩ ⟨⟨"r", 0⟩, []⟩ [] (by decide),
         h2 ⟨"b", 6⟩ ⟨⟨"r", 0⟩, []⟩ (by decide),
         h3 0 ⟨"b", 5⟩ (by decide),
         h4 0 ⟨"b", 6⟩ (by decide)⟩

/-! ### Take-policy invariants

The serial-keyed dict built by lines 62–67 of
`04.copy_last_to_pc_and_scene_sorting.py`: keys are distinct, every bucket
is non-empty and holds exactly the records carrying its serial, and every
record lands in its serial's bucket. -/

theorem addToGroups_inv (r : MediaRecord) :
    ∀ acc : List (String × List MediaRecord),
      (∀ g ∈ acc, g.2 ≠ [] ∧ ∀ f ∈ g.2, f.serial = g.1) →
      ∀ g ∈ addToGroups acc r, g.2 ≠ [] ∧ ∀ f ∈ g.2, f.serial = g.1 := by
  intro acc
  induction acc with
  | nil =>
    intro _ g hg
    simp only [addToGroups, List.mem_singleton] at hg
    subst hg
    refine ⟨by simp, ?_⟩
    intro f hf
    simp only [List.mem_singleton] at hf
    rw [hf]
  | cons p rest ih =>
    obtain ⟨k, fs⟩ := p
    intro hinv g hg
    simp only [addToGroups] at hg
    by_cases hk : k = r.serial
    · rw [if_pos hk] at hg
      rcases List.mem_cons.mp hg with rfl | h1
      · refine ⟨by simp, ?_⟩
        intro f hf
        rcases List.mem_append.mp hf with h2 | h2
        · exact (hinv (k, fs) (List.mem_cons_self _ _)).2 f h2
        · have h3 : f = r := by simpa using h2
          rw [h3]
          exact hk.symm
      · exact hinv g (List.mem_cons_of_mem _ h1)
    · rw [if_neg hk] at hg
      rcases List.mem_cons.mp hg with rfl | h1
      · exact hinv (k, fs) (List.mem_cons_self _ _)
      · exact ih (fun g' hg' => hinv g' (List.mem_cons_of_mem _ hg')) g h1

theorem addToGroups_keys (r : MediaRecord) :
    ∀ acc : List (String × List MediaRecord),
      (addToGroups acc r).map Prod.fst =
        if r.serial ∈ acc.map Prod.fst then acc.map Prod.fst
        else acc.map Prod.fst ++ [r.serial] := by
  intro acc
  induction acc with
  | nil => simp [addToGroups]
  | cons p rest ih =>
    obtain ⟨k, fs⟩ := p
    simp only [addToGroups, List.map_cons]
    by_cases hk : k = r.serial
    · rw [if_pos hk, if_pos (by simp [List.map_cons, ← hk])]
      simp [List.map_cons]
    · rw [if_neg hk]
      simp only [List.map_cons, ih]
      by_cases hm : r.serial ∈ rest.map Prod.fst
      · rw [if_pos hm, if_pos (by simp [List.map_cons, hm])]
      · rw [if_neg hm,
          if_neg (by simp [List.map_cons, hm]; exact fun h => hk h.symm)]
        simp

theorem groupByAux_inv :
    ∀ (l : List MediaRecord) (acc : List (String × List MediaRecord)),
      (∀ g ∈ acc, g.2 ≠ [] ∧ ∀ f ∈ g.2, f.serial = g.1) →
      ∀ g ∈ groupByAux acc l, g.2 ≠ [] ∧ ∀ f ∈ g.2, f.serial = g.1 := by
  intro l
  induction l with
  | nil => intro acc hinv; exact hinv
  | cons x xs ih =>
    intro acc hinv
    simp only [groupByAux]
    exact ih _ (addToGroups_inv x acc hinv)

theorem groupByAux_keys_nodup :
    ∀ (l : List MediaRecord) (acc : List (String × List MediaRecord)),
      ((acc.map Prod.fst).Nodup) →
      (((groupByAux acc l).map Prod.fst).Nodup) := by
  intro l
  induction l with
  | nil => intro acc hnd; exact hnd
  | cons x xs ih =>
    intro acc hnd
    simp only [groupByAux]
    refine ih _ ?_
    rw [addToGroups_keys]
    by_cases hm : x.serial ∈ acc.map Prod.fst
    · rw [if_pos hm]; exact hnd
    · rw [if_neg hm]
      simp [List.nodup_append, hnd, hm]

theorem addToGroups_sound (r : MediaRecord) :
    ∀ acc : List (String × List MediaRecord),
      ∀ g ∈ addToGroups acc r, ∀ f ∈ g.2,
        (∃ g0 ∈ acc, f ∈ g0.2) ∨ f = r := by
  intro acc
  induction acc with
  | nil =>
    intro g hg f hf
    simp only [addToGroups, List.mem_singleton] at hg
    subst hg
    right
    simpa using hf
  | cons p rest ih =>
    obtain ⟨k, fs⟩ := p
    intro g hg f hf
    simp only [addToGroups] at hg
    by_cases hk : k = r.serial
    · rw [if_pos hk] at hg
      rcases List.mem_cons.mp hg with rfl | h1
      · rcases List.mem_append.mp hf with h2 | h2
        · exact Or.inl ⟨(k, fs), List.mem_cons_self _ _, h2⟩
        · right; simpa using h2
      · exact Or.inl ⟨g, List.mem_cons_of_mem _ h1, hf⟩
    · rw [if_neg hk] at hg
      rcases List.mem_cons.mp hg with rfl | h1
      · exact Or.inl ⟨(k, fs), List.mem_cons_self _ _, hf⟩
      · rcases ih g h1 f hf with ⟨g0, hg0, hfg0⟩ | h2
        · exact Or.inl ⟨g0, List.mem_cons_of_mem _ hg0, hfg0⟩
        · exact Or.inr h2

theorem groupByAux_sound :
    ∀ (l : List MediaRecord) (acc : List (String × List MediaRecord)),
      ∀ g ∈ groupByAux acc l, ∀ f ∈ g.2,
        (∃ g0 ∈ acc, f ∈ g0.2) ∨ f ∈ l := by
  intro l
  induction l with
  | nil => intro acc g hg f hf; exact Or.inl ⟨g, hg, hf⟩
  | cons x xs ih =>
    intro acc g hg f hf
    simp only [groupByAux] at hg
    rcases ih _ g hg f hf with ⟨g1, hg1, hfg1⟩ | h2
    · rcases addToGroups_sound x acc g1 hg1 f hfg1 with ⟨g0, hg0, hfg0⟩ | h3
      · exact Or.inl ⟨g0, hg0, hfg0⟩
      · exact Or.inr (h3 ▸ List.mem_cons_self _ _)
    · exact Or.inr (List.mem_cons_of_mem _ h2)

theorem addToGroups_complete_old (r : MediaRecord) :
    ∀ acc : List (String × List MediaRecord),
      ∀ g ∈ acc, ∃ g' ∈ addToGroups acc r, g'.1 = g.1 ∧ ∀ f ∈ g.2, f ∈ g'.2 := by
  intro acc
  induction acc with
  | nil => intro g hg; cases hg
  | cons p rest ih =>
    obtain ⟨k, fs⟩ := p
    intro g hg
    simp only [addToGroups]
    by_cases hk : k = r.serial
    · rw [if_pos hk]
      rcases List.mem_cons.mp hg with rfl | h1
      · exact ⟨(k, fs ++ [r]), List.mem_cons_self _ _, rfl,
          fun f hf => List.mem_append.mpr (Or.inl hf)⟩
      · exact ⟨g, List.mem_cons_of_mem _ h1, rfl, fun f hf => hf⟩
    · rw [if_neg hk]
      rcases List.mem_cons.mp hg with rfl | h1
      · exact ⟨(k, fs), List.mem_cons_self _ _, rfl, fun f hf => hf⟩
      · rcases ih g h1 with ⟨g', hg', hkey, hsub⟩
        exact ⟨g', List.mem_cons_of_mem _ hg', hkey, hsub⟩

theorem addToGroups_complete_new (r : MediaRecord) :
    ∀ acc : List (String × List MediaRecord),
      ∃ g' ∈ addToGroups acc r, g'.1 = r.serial ∧ r ∈ g'.2 := by
  intro acc
  induction acc with
  | nil =>
    exact ⟨(r.serial, [r]), List.mem_singleton.mpr rfl, rfl,
      List.mem_singleton.mpr rfl⟩
  | cons p rest ih =>
    obtain ⟨k, fs⟩ := p
    simp only [addToGroups]
    by_cases hk : k = r.serial
    · rw [if_pos hk]
      exact ⟨(k, fs ++ [r]), List.mem_cons_self _ _, hk,
        List.mem_append.mpr (Or.inr (List.mem_singleton.mpr rfl))⟩
    · rw [if_neg hk]
      rcases ih with ⟨g', hg', hkey, hmem⟩
      exact ⟨g', List.mem_cons_of_mem _ hg', hkey, hmem⟩

theorem groupByAux_complete :
    ∀ (l : List MediaRecord) (acc : List (String × List MediaRecord)) (r : MediaRecord),
      (r ∈ l ∨ ∃ g ∈ acc, r ∈ g.2) →
      ∃ g' ∈ groupByAux acc l, r ∈ g'.2 := by
  intro l
  induction l with
  | nil =>
    intro acc r h
    rcases h with h | ⟨g, hg, hrg⟩
    · cases h
    · exact ⟨g, hg, hrg⟩
  | cons x xs ih =>
    intro acc r h
    simp only [groupByAux]
    rcases h with h | ⟨g, hg, hrg⟩
    · rcases List.mem_cons.mp h with rfl | h1
      · rcases addToGroups_complete_new r acc with ⟨g', hg', _, hmem⟩
        exact ih _ r (Or.inr ⟨g', hg', hmem⟩)
      · exact ih _ r (Or.inl h1)
    · rcases addToGroups_complete_old x acc g hg with ⟨g', hg', _, hsub⟩
      exact ih _ r (Or.inr ⟨g', hg', hsub r hrg⟩)

theorem groupBySerial_inv (records : List MediaRecord) :
    ∀ g ∈ groupBySerial records, g.2 ≠ [] ∧ ∀ f ∈ g.2, f.serial = g.1 :=
  groupByAux_inv records [] (by intro g hg; cases hg)

theorem groupBySerial_keys_nodup (records : List MediaRecord) :
    ((groupBySerial records).map Prod.fst).Nodup :=
  groupByAux_keys_nodup records [] (by simp)

theorem groupBySerial_sound (records : List MediaRecord) :
    ∀ g ∈ groupBySerial records, ∀ f ∈ g.2, f ∈ records := by
  intro g hg f hf
  rcases groupByAux_sound records [] g hg f hf with ⟨g0, hg0, _⟩ | h
  · cases hg0
  · exact h

theorem groupBySerial_complete (records : List MediaRecord) :
    ∀ r ∈ records, ∃ g ∈ groupBySerial records, r ∈ g.2 := by
  intro r hr
  exact groupByAux_complete records [] r (Or.inl hr)

theorem sortedGroups_keys (records : List MediaRecord) :
    (sortedGroups records).map Prod.fst = (groupBySerial records).map Prod.fst := by
  simp only [sortedGroups, List.map_map]
  rfl

theorem sortedGroups_keys_nodup (records : List MediaRecord) :
    ((sortedGroups records).map Prod.fst).Nodup := by
  rw [sortedGroups_keys]
  exact groupBySerial_keys_nodup records

theorem sortedGroups_key_unique (records : List MediaRecord) {g g'}
    (hg : g ∈ sortedGroups records) (hg' : g' ∈ sortedGroups records)
    (hk : g.1 = g'.1) : g = g' :=
  List.inj_on_of_nodup_map (sortedGroups_keys_nodup records) hg hg' hk

/-- Every per-camera bucket after sorting: non-empty, members carry the
bucket's serial and come from the catalog, the list is newest-first, and it
contains every catalog record with that serial. -/
theorem sortedGroups_props (records : List MediaRecord) :
    ∀ g ∈ sortedGroups records,
      g.2 ≠ [] ∧ (∀ f ∈ g.2, f.serial = g.1 ∧ f ∈ records) ∧
      List.Sorted descByTime g.2 ∧
      (∀ r ∈ records, r.serial = g.1 → r ∈ g.2) := by
  intro g hg
  rcases List.mem_map.mp hg with ⟨g0, hg0, hEq⟩
  have hperm : (List.insertionSort descByTime g0.2).Perm g0.2 :=
    List.perm_insertionSort descByTime g0.2
  have hmemiff : ∀ f, f ∈ g.2 ↔ f ∈ g0.2 := by
    intro f
    rw [← hEq]
    exact hperm.mem_iff
  have hkey : g.1 = g0.1 := by rw [← hEq]
  have hinv := groupBySerial_inv records g0 hg0
  refine ⟨?_, ?_, ?_, ?_⟩
  · intro hnil
    rcases List.exists_mem_of_ne_nil g0.2 hinv.1 with ⟨f, hf⟩
    have : f ∈ g.2 := (hmemiff f).mpr hf
    rw [hnil] at this
    cases this
  · intro f hf
    have hf0 := (hmemiff f).mp hf
    exact ⟨by rw [hkey]; exact hinv.2 f hf0, groupBySerial_sound records g0 hg0 f hf0⟩
  · rw [← hEq]
    exact List.sorted_insertionSort descByTime g0.2
  · intro r hr hser
    rcases groupBySerial_complete records r hr with ⟨gr, hgr, hrgr⟩
    have hkr : gr.1 = r.serial := ((groupBySerial_inv records gr hgr).2 r hrgr).symm
    have : gr = g0 := by
      refine List.inj_on_of_nodup_map (groupBySerial_keys_nodup records) hgr hg0 ?_
      rw [hkr, hser, hkey]
    rw [this] at hrgr
    exact (hmemiff r).mpr hrgr

theorem sortedGroups_complete (records : List MediaRecord) :
    ∀ r ∈ records, ∃ g ∈ sortedGroups records, g.1 = r.serial ∧ r ∈ g.2 := by
  intro r hr
  rcases groupBySerial_complete records r hr with ⟨g0, hg0, hrg0⟩
  refine ⟨(g0.1, List.insertionSort descByTime g0.2), List.mem_map_of_mem _ hg0, ?_, ?_⟩
  · exact ((groupBySerial_inv records g0 hg0).2 r hrg0).symm
  · exact (List.perm_insertionSort descByTime g0.2).mem_iff.mpr hrg0

/-- The `latest_time` fold: when it returns `none` nothing was seen; when it
returns `some t`, `t` is one of the seen head-times (or the initial
accumulator) and bounds them all. -/
theorem globalLatestAux_spec :
    ∀ (groups : List (String × List MediaRecord)) (acc : Option ℤ),
      (globalLatestAux acc groups = none →
        acc = none ∧ ∀ g ∈ groups, g.2.head? = none) ∧
      (∀ t, globalLatestAux acc groups = some t →
        ((acc = some t) ∨ ∃ g ∈ groups, ∃ f, g.2.head? = some f ∧ f.time = t) ∧
        (∀ x, acc = some x → x ≤ t) ∧
        (∀ g ∈ groups, ∀ f, g.2.head? = some f → f.time ≤ t)) := by
  intro groups
  induction groups with
  | nil =>
    intro acc
    constructor
    · intro h
      exact ⟨h, by intro g hg; cases hg⟩
    · intro t ht
      exact ⟨Or.inl ht, fun x hx => by rw [hx] at ht; injection ht with h; omega,
        by intro g hg; cases hg⟩
  | cons p rest ih =>
    obtain ⟨k, files⟩ := p
    intro acc
    rcases files with _ | ⟨h0, tl⟩
    · -- empty bucket: accumulator unchanged
      constructor
      · intro hnone
        have := (ih acc).1 hnone
        refine ⟨this.1, ?_⟩
        intro g hg
        rcases List.mem_cons.mp hg with rfl | h1
        · rfl
        · exact this.2 g h1
      · intro t ht
        have := (ih acc).2 t ht
        refine ⟨?_, this.2.1, ?_⟩
        · rcases this.1 with h | ⟨g, hg, hf⟩
          · exact Or.inl h
          · exact Or.inr ⟨g, List.mem_cons_of_mem _ hg, hf⟩
        · intro g hg f hf
          rcases List.mem_cons.mp hg with rfl | h1
          · cases hf
          · exact this.2.2 g h1 f hf
    · -- non-empty bucket: the accumulator becomes the max of old value and head time
      rcases acc with _ | x
      · constructor
        · intro hnone
          have hnone2 : globalLatestAux (some h0.time) rest = none := hnone
          rcases (ih (some h0.time)).1 hnone2 with ⟨h1, _⟩
          cases h1
        · intro t ht
          have ht2 : globalLatestAux (some h0.time) rest = some t := ht
          have hrest := (ih (some h0.time)).2 t ht2
          refine ⟨?_, ?_, ?_⟩
          · rcases hrest.1 with h | ⟨g, hg, f, hf, hft⟩
            · injection h with h1
              exact Or.inr ⟨(k, h0 :: tl), List.mem_cons_self _ _, h0, rfl, h1⟩
            · exact Or.inr ⟨g, List.mem_cons_of_mem _ hg, f, hf, hft⟩
          · intro y hy; cases hy
          · intro g hg f hf
            rcases List.mem_cons.mp hg with rfl | h1
            · have hfh : h0 = f := by simpa using hf
              rw [← hfh]
              exact hrest.2.1 h0.time rfl
            · exact hrest.2.2 g h1 f hf
      · by_cases hgt : h0.time > x
        · constructor
          · intro hnone
            have hnone2 : globalLatestAux
                (if h0.time > x then some h0.time else some x) rest = none := hnone
            rw [if_pos hgt] at hnone2
            rcases (ih (some h0.time)).1 hnone2 with ⟨h1, _⟩
            cases h1
          · intro t ht
            have ht2 : globalLatestAux
                (if h0.time > x then some h0.time else some x) rest = some t := ht
            rw [if_pos hgt] at ht2
            have hrest := (ih (some h0.time)).2 t ht2
            have hle : h0.time ≤ t := hrest.2.1 h0.time rfl
            refine ⟨?_, ?_, ?_⟩
            · rcases hrest.1 with h | ⟨g, hg, f, hf, hft⟩
              · injection h with h1
                exact Or.inr ⟨(k, h0 :: tl), List.mem_cons_self _ _, h0, rfl, h1⟩
              · exact Or.inr ⟨g, List.mem_cons_of_mem _ hg, f, hf, hft⟩
            · intro y hy
              injection hy with hy1
              omega
            · intro g hg f hf
              rcases List.mem_cons.mp hg with rfl | h1
              · have hfh : h0 = f := by simpa using hf
                rw [← hfh]; exact hle
              · exact hrest.2.2 g h1 f hf
        · constructor
          · intro hnone
            have hnone2 : globalLatestAux
                (if h0.time > x then some h0.time else some x) rest = none := hnone
            rw [if_neg hgt] at hnone2
            rcases (ih (some x)).1 hnone2 with ⟨h1, _⟩
            cases h1
          · intro t ht
            have ht2 : globalLatestAux
                (if h0.time > x then some h0.time else some x) rest = some t := ht
            rw [if_neg hgt] at ht2
            have hrest := (ih (some x)).2 t ht2
            have hxle : x ≤ t := hrest.2.1 x rfl
            refine ⟨?_, ?_, ?_⟩
            · rcases hrest.1 with h | ⟨g, hg, f, hf, hft⟩
              · exact Or.inl h
              · exact Or.inr ⟨g, List.mem_cons_of_mem _ hg, f, hf, hft⟩
            · intro y hy
              injection hy with hy1
              omega
            · intro g hg f hf
              rcases List.mem_cons.mp hg with rfl | h1
              · have hfh : h0 = f := by simpa using hf
                rw [← hfh]
                omega
              · exact hrest.2.2 g h1 f hf

/-- The closest-file fold: a `none` result means nothing within 5 seconds
was seen; a `some` result carries the minimal distance among the seen
records (bounded by 5) and belongs to the scanned list or the initial
best. -/
theorem findClosestAux_spec (latest : ℤ) :
    ∀ (files : List MediaRecord) (best : Option (MediaRecord × ℤ)),
      (∀ b bd, best = some (b, bd) → bd = |b.time - latest| ∧ bd ≤ 5) →
      ((findClosestAux latest best files = none →
          best = none ∧ ∀ f ∈ files, 5 < |f.time - latest|) ∧
       (∀ c cd, findClosestAux latest best files = some (c, cd) →
          cd = |c.time - latest| ∧ cd ≤ 5 ∧
          (c ∈ files ∨ best = some (c, cd)) ∧
          (∀ f ∈ files, cd ≤ |f.time - latest|) ∧
          (∀ b bd, best = some (b, bd) → cd ≤ bd))) := by
  intro files
  induction files with
  | nil =>
    intro best hbest
    constructor
    · intro h
      exact ⟨h, by intro f hf; cases hf⟩
    · intro c cd h
      have hb : best = some (c, cd) := h
      have h1 := hbest c cd hb
      refine ⟨h1.1, h1.2, Or.inr hb, ?_, ?_⟩
      · intro f hf; cases hf
      intro b bd hbd
      rw [hb] at hbd
      injection hbd with h2
      injection h2 with h3 h4
      omega
  | cons f fs ih =>
    intro best hbest
    rcases best with _ | ⟨b, bd⟩
    · by_cases hd : |f.time - latest| ≤ 5
      · have hbest2 : ∀ b' bd',
            (some (f, |f.time - latest|) : Option (MediaRecord × ℤ)) = some (b', bd') →
            bd' = |b'.time - latest| ∧ bd' ≤ 5 := by
          intro b' bd' h
          injection h with h1
          injection h1 with h2 h3
          rw [← h2, ← h3]
          exact ⟨rfl, hd⟩
        have IH := ih (some (f, |f.time - latest|)) hbest2
        constructor
        · intro h
          have h2 : findClosestAux latest
              (if |f.time - latest| ≤ 5 then some (f, |f.time - latest|) else none)
              fs = none := h
          rw [if_pos hd] at h2
          rcases IH.1 h2 with ⟨h3, _⟩
          cases h3
        · intro c cd h
          have h2 : findClosestAux latest
              (if |f.time - latest| ≤ 5 then some (f, |f.time - latest|) else none)
              fs = some (c, cd) := h
          rw [if_pos hd] at h2
          have h3 := IH.2 c cd h2
          refine ⟨h3.1, h3.2.1, ?_, ?_, ?_⟩
          · rcases h3.2.2.1 with h4 | h4
            · exact Or.inl (List.mem_cons_of_mem _ h4)
            · injection h4 with h5
              injection h5 with h6 h7
              rw [h6]
              exact Or.inl (List.mem_cons_self _ _)
          · intro f2 hf2
            rcases List.mem_cons.mp hf2 with h4 | h4
            · have h5 : cd ≤ |f.time - latest| := h3.2.2.2.2 f |f.time - latest| rfl
              rw [h4]
              omega
            · exact h3.2.2.2.1 f2 h4
          · intro b' bd' hbd'
            cases hbd'
      · have IH := ih none (by intro b' bd' hh; cases hh)
        constructor
        · intro h
          have h2 : findClosestAux latest
              (if |f.time - latest| ≤ 5 then some (f, |f.time - latest|) else none)
              fs = none := h
          rw [if_neg hd] at h2
          have h3 := IH.1 h2
          refine ⟨rfl, ?_⟩
          intro f2 hf2
          rcases List.mem_cons.mp hf2 with h4 | h4
          · rw [h4]
            omega
          · exact h3.2 f2 h4
        · intro c cd h
          have h2 : findClosestAux latest
              (if |f.time - latest| ≤ 5 then some (f, |f.time - latest|) else none)
              fs = some (c, cd) := h
          rw [if_neg hd] at h2
          have h3 := IH.2 c cd h2
          refine ⟨h3.1, h3.2.1, ?_, ?_, ?_⟩
          · rcases h3.2.2.1 with h4 | h4
            · exact Or.inl (List.mem_cons_of_mem _ h4)
            · cases h4
          · intro f2 hf2
            rcases List.mem_cons.mp hf2 with h4 | h4
            · have h5 : cd ≤ 5 := h3.2.1
              rw [h4]
              omega
            · exact h3.2.2.2.1 f2 h4
          · intro b' bd' hbd'
            cases hbd'
    · have hb := hbest b bd rfl
      by_cases hcond : |f.time - latest| ≤ 5 ∧ |f.time - latest| < bd
      · have hbest2 : ∀ b' bd',
            (some (f, |f.time - latest|) : Option (MediaRecord × ℤ)) = some (b', bd') →
            bd' = |b'.time - latest| ∧ bd' ≤ 5 := by
          intro b' bd' h
          injection h with h1
          injection h1 with h2 h3
          rw [← h2, ← h3]
          exact ⟨rfl, hcond.1⟩
        have IH := ih (some (f, |f.time - latest|)) hbest2
        constructor
        · intro h
          have h2 : findClosestAux latest
              (if |f.time - latest| ≤ 5 ∧ |f.time - latest| < bd
                then some (f, |f.time - latest|) else some (b, bd)) fs = none := h
          rw [if_pos hcond] at h2
          rcases IH.1 h2 with ⟨h3, _⟩
          cases h3
        · intro c cd h
          have h2 : findClosestAux latest
              (if |f.time - latest| ≤ 5 ∧ |f.time - latest| < bd
                then some (f, |f.time - latest|) else some (b, bd)) fs = some (c, cd) := h
          rw [if_pos hcond] at h2
          have h3 := IH.2 c cd h2
          have hcdd : cd ≤ |f.time - latest| := h3.2.2.2.2 f |f.time - latest| rfl
          refine ⟨h3.1, h3.2.1, ?_, ?_, ?_⟩
          · rcases h3.2.2.1 with h4 | h4
            · exact Or.inl (List.mem_cons_of_mem _ h4)
            · injection h4 with h5
              injection h5 with h6 h7
              rw [h6]
              exact Or.inl (List.mem_cons_self _ _)
          · intro f2 hf2
            rcases List.mem_cons.mp hf2 with h4 | h4
            · rw [h4]
              omega
            · exact h3.2.2.2.1 f2 h4
          · intro b' bd' hbd'
            injection hbd' with h5
            injection h5 with h6 h7
            have h8 := hcond.2
            omega
      · have IH := ih (some (b, bd)) hbest
        constructor
        · intro h
          have h2 : findClosestAux latest
              (if |f.time - latest| ≤ 5 ∧ |f.time - latest| < bd
                then some (f, |f.time - latest|) else some (b, bd)) fs = none := h
          rw [if_neg hcond] at h2
          rcases IH.1 h2 with ⟨h3, _⟩
          cases h3
        · intro c cd h
          have h2 : findClosestAux latest
              (if |f.time - latest| ≤ 5 ∧ |f.time - latest| < bd
                then some (f, |f.time - latest|) else some (b, bd)) fs = some (c, cd) := h
          rw [if_neg hcond] at h2
          have h3 := IH.2 c cd h2
          have hcdbd : cd ≤ bd := h3.2.2.2.2 b bd rfl
          refine ⟨h3.1, h3.2.1, ?_, ?_, ?_⟩
          · rcases h3.2.2.1 with h4 | h4
            · exact Or.inl (List.mem_cons_of_mem _ h4)
            · exact Or.inr h4
          · intro f2 hf2
            rcases List.mem_cons.mp hf2 with h4 | h4
            · rcases not_and_or.mp hcond with h5 | h5
              · have h6 : cd ≤ 5 := h3.2.1
                rw [h4]
                omega
              · rw [h4]
                omega
            · exact h3.2.2.2.1 f2 h4
          · intro b' bd' hbd'
            injection hbd' with h5
            injection h5 with h6 h7
            omega

theorem findClosest_none (latest : ℤ) (files : List MediaRecord) :
    findClosest latest files = none → ∀ f ∈ files, 5 < |f.time - latest| := by
  intro h f hf
  have h2 : findClosestAux latest none files = none := by
    rcases hx : findClosestAux latest none files with _ | p
    · rfl
    · rw [findClosest, hx] at h
      cases h
  exact ((findClosestAux_spec latest files none
    (by intro b bd hh; cases hh)).1 h2).2 f hf

theorem findClosest_some (latest : ℤ) (files : List MediaRecord) (c : MediaRecord) :
    findClosest latest files = some c →
      c ∈ files ∧ |c.time - latest| ≤ 5 ∧
      ∀ f ∈ files, |c.time - latest| ≤ |f.time - latest| := by
  intro h
  rw [findClosest] at h
  rcases hx : findClosestAux latest none files with _ | ⟨c2, cd⟩
  · rw [hx] at h
    cases h
  · rw [hx] at h
    injection h with hc
    have h3 := (findClosestAux_spec latest files none
      (by intro b bd hh; cases hh)).2 c2 cd hx
    rcases h3 with ⟨h4, h5, h6, h7, _⟩
    rcases h6 with h6 | h6
    · refine ⟨hc ▸ h6, ?_, ?_⟩
      · rw [← hc, ← h4]
        exact h5
      · intro f hf
        rw [← hc, ← h4]
        exact h7 f hf
    · cases h6

theorem buildTake_mem (latest : ℤ) :
    ∀ groups : List (String × List MediaRecord),
      ∀ p ∈ buildTake latest groups, ∃ g ∈ groups, ∃ h0 tl, g.2 = h0 :: tl ∧
        ((∃ c, findClosest latest (h0 :: tl) = some c ∧ p = (c, false)) ∨
         (findClosest latest (h0 :: tl) = none ∧ p = (h0, true))) := by
  intro groups
  induction groups with
  | nil => intro p hp; cases hp
  | cons g gs ih =>
    intro p hp
    rcases hgl : g.2 with _ | ⟨h0, tl⟩
    · have hp2 : p ∈ buildTake latest gs := by
        have : buildTake latest (g :: gs) = buildTake latest gs := by
          simp only [buildTake]
          rw [hgl]
        rw [this] at hp
        exact hp
      rcases ih p hp2 with ⟨g2, hg2, h02, tl2, hgl2, hcase⟩
      exact ⟨g2, List.mem_cons_of_mem _ hg2, h02, tl2, hgl2, hcase⟩
    · rcases hfc : findClosest latest (h0 :: tl) with _ | c
      · have hp2 : p ∈ (h0, true) :: buildTake latest gs := by
          have : buildTake latest (g :: gs) = (h0, true) :: buildTake latest gs := by
            simp only [buildTake]
            rw [hgl]
            simp only
            rw [hfc]
          rw [this] at hp
          exact hp
        rcases List.mem_cons.mp hp2 with h1 | h1
        · exact ⟨g, List.mem_cons_self _ _, h0, tl, hgl, Or.inr ⟨hfc, h1⟩⟩
        · rcases ih p h1 with ⟨g2, hg2, h02, tl2, hgl2, hcase⟩
          exact ⟨g2, List.mem_cons_of_mem _ hg2, h02, tl2, hgl2, hcase⟩
      · have hp2 : p ∈ (c, false) :: buildTake latest gs := by
          have : buildTake latest (g :: gs) = (c, false) :: buildTake latest gs := by
            simp only [buildTake]
            rw [hgl]
            simp only
            rw [hfc]
          rw [this] at hp
          exact hp
        rcases List.mem_cons.mp hp2 with h1 | h1
        · exact ⟨g, List.mem_cons_self _ _, h0, tl, hgl, Or.inl ⟨c, hfc, h1⟩⟩
        · rcases ih p h1 with ⟨g2, hg2, h02, tl2, hgl2, hcase⟩
          exact ⟨g2, List.mem_cons_of_mem _ hg2, h02, tl2, hgl2, hcase⟩

theorem buildTake_serials (latest : ℤ) :
    ∀ groups : List (String × List MediaRecord),
      (∀ g ∈ groups, g.2 ≠ [] ∧ ∀ f ∈ g.2, f.serial = g.1) →
      (buildTake latest groups).map (fun p => p.1.serial) = groups.map Prod.fst := by
  intro groups
  induction groups with
  | nil => intro _; rfl
  | cons g gs ih =>
    intro hinv
    have hg := hinv g (List.mem_cons_self _ _)
    have hih := ih (fun g2 hg2 => hinv g2 (List.mem_cons_of_mem _ hg2))
    rcases hgl : g.2 with _ | ⟨h0, tl⟩
    · exact absurd hgl hg.1
    · rcases hfc : findClosest latest (h0 :: tl) with _ | c
      · have heq : buildTake latest (g :: gs) = (h0, true) :: buildTake latest gs := by
          simp only [buildTake]
          rw [hgl]
          simp only
          rw [hfc]
        have hser : h0.serial = g.1 :=
          hg.2 h0 (by rw [hgl]; exact List.mem_cons_self _ _)
        rw [heq, List.map_cons, List.map_cons, hih, hser]
      · have heq : buildTake latest (g :: gs) = (c, false) :: buildTake latest gs := by
          simp only [buildTake]
          rw [hgl]
          simp only
          rw [hfc]
        have hcmem : c ∈ g.2 := by
          rw [hgl]
          exact (findClosest_some latest (h0 :: tl) c hfc).1
        have hser : c.serial = g.1 := hg.2 c hcmem
        rw [heq, List.map_cons, List.map_cons, hih, hser]

/-- **C3.** For a non-empty catalog the take policy computes the global
latest as the maximum record time; each produced entry is a catalog record;
an unflagged entry is within 5 seconds of the global latest and closest to
it among its camera's records; a flagged entry's camera has no record
within 5 seconds and the entry is that camera's most recent record; and the
take holds at most one file per camera (its serials are distinct). -/
theorem take_policy_spec (records : List MediaRecord) (hne : records ≠ []) :
    ∃ latest : ℤ,
      globalLatestAux none (sortedGroups records) = some latest ∧
      (∃ r ∈ records, r.time = latest) ∧
      (∀ r ∈ records, r.time ≤ latest) ∧
      (∀ p ∈ takePolicy records,
        p.1 ∈ records ∧
        (p.2 = false →
          |p.1.time - latest| ≤ 5 ∧
          ∀ r ∈ records, r.serial = p.1.serial →
            |p.1.time - latest| ≤ |r.time - latest|) ∧
        (p.2 = true →
          (∀ r ∈ records, r.serial = p.1.serial → 5 < |r.time - latest|) ∧
          (∀ r ∈ records, r.serial = p.1.serial → r.time ≤ p.1.time))) ∧
      ((takePolicy records).map (fun p => p.1.serial)).Nodup := by
  rcases List.exists_mem_of_ne_nil records hne with ⟨r0, hr0⟩
  rcases sortedGroups_complete records r0 hr0 with ⟨g0, hg0, _, hr0g⟩
  rcases hgl : globalLatestAux none (sortedGroups records) with _ | latest
  · exfalso
    have h1 := (globalLatestAux_spec (sortedGroups records) none).1 hgl
    have h2 := h1.2 g0 hg0
    rcases hx : g0.2 with _ | ⟨a, b⟩
    · exact (sortedGroups_props records g0 hg0).1 hx
    · rw [hx] at h2
      cases h2
  · have hspec := (globalLatestAux_spec (sortedGroups records) none).2 latest hgl
    have heq : takePolicy records = buildTake latest (sortedGroups records) := by
      unfold takePolicy
      rw [hgl]
    refine ⟨latest, rfl, ?_, ?_, ?_, ?_⟩
    · rcases hspec.1 with h | ⟨g, hg, f, hf, hft⟩
      · cases h
      · have hfmem : f ∈ g.2 := by
          rcases hx : g.2 with _ | ⟨a, b⟩
          · rw [hx] at hf; cases hf
          · rw [hx] at hf
            injection hf with h1
            rw [← h1]
            exact List.mem_cons_self _ _
        exact ⟨f, ((sortedGroups_props records g hg).2.1 f hfmem).2, hft⟩
    · intro r hr
      rcases sortedGroups_complete records r hr with ⟨g, hg, _, hrg⟩
      have hprops := sortedGroups_props records g hg
      rcases hx : g.2 with _ | ⟨a, b⟩
      · exact absurd hx hprops.1
      · have hsorted : List.Sorted descByTime (a :: b) := hx ▸ hprops.2.2.1
        have hle : r.time ≤ a.time := by
          rw [hx] at hrg
          rcases List.mem_cons.mp hrg with h1 | h1
          · rw [h1]
          · exact List.rel_of_sorted_cons hsorted r h1
        have hha : a.time ≤ latest := hspec.2.2 g hg a (by rw [hx]; rfl)
        omega
    · intro p hp
      rw [heq] at hp
      rcases buildTake_mem latest (sortedGroups records) p hp with
        ⟨g, hg, h0, tl, hgl2, hcase⟩
      have hprops := sortedGroups_props records g hg
      rcases hcase with ⟨c, hfc, hpc⟩ | ⟨hfc, hpc⟩
      · subst hpc
        have hcsome := findClosest_some latest (h0 :: tl) c hfc
        have hcmem : c ∈ g.2 := by
          rw [hgl2]
          exact hcsome.1
        have hcser : c.serial = g.1 := (hprops.2.1 c hcmem).1
        refine ⟨(hprops.2.1 c hcmem).2, ?_, ?_⟩
        · intro _
          refine ⟨hcsome.2.1, ?_⟩
          intro r hr hser
          have hrg : r ∈ g.2 := hprops.2.2.2 r hr (hser.trans hcser)
          rw [hgl2] at hrg
          exact hcsome.2.2 r hrg
        · intro hfalse
          exact absurd hfalse Bool.false_ne_true
      · subst hpc
        have hh0mem : h0 ∈ g.2 := by
          rw [hgl2]
          exact List.mem_cons_self _ _
        have hh0ser : h0.serial = g.1 := (hprops.2.1 h0 hh0mem).1
        refine ⟨(hprops.2.1 h0 hh0mem).2, ?_, ?_⟩
        · intro hft
          exact Bool.noConfusion hft
        · intro _
          have hnone := findClosest_none latest (h0 :: tl) hfc
          constructor
          · intro r hr hser
            have hrg : r ∈ g.2 := hprops.2.2.2 r hr (hser.trans hh0ser)
            rw [hgl2] at hrg
            exact hnone r hrg
          · intro r hr hser
            have hrg : r ∈ g.2 := hprops.2.2.2 r hr (hser.trans hh0ser)
            have hsorted : List.Sorted descByTime (h0 :: tl) := hgl2 ▸ hprops.2.2.1
            rw [hgl2] at hrg
            rcases List.mem_cons.mp hrg with h1 | h1
            · rw [h1]
            · exact List.rel_of_sorted_cons hsorted r h1
    · rw [heq, buildTake_serials latest (sortedGroups records)
        (fun g hg => ⟨(sortedGroups_props records g hg).1,
          fun f hf => ((sortedGroups_props records g hg).2.1 f hf).1⟩)]
      exact sortedGroups_keys_nodup records

/-- **C8.** The take policy selects exactly one file for every camera that
contributed at least one record: the serials of the take entries are
distinct and coincide with the serials occurring in the catalog (a camera
with nothing within tolerance still contributes via the fallback). -/
theorem take_policy_covers (records : List MediaRecord) :
    ((takePolicy records).map (fun p => p.1.serial)).Nodup ∧
    (∀ srl : String,
      srl ∈ (takePolicy records).map (fun p => p.1.serial) ↔
      srl ∈ records.map MediaRecord.serial) := by
  rcases hgl : globalLatestAux none (sortedGroups records) with _ | latest
  · have h1 := (globalLatestAux_spec (sortedGroups records) none).1 hgl
    have heq : takePolicy records = [] := by
      unfold takePolicy
      rw [hgl]
    rw [heq]
    constructor
    · exact List.nodup_nil
    · intro srl
      constructor
      · intro h
        cases h
      · intro h
        exfalso
        rcases List.mem_map.mp h with ⟨r, hr, hser⟩
        rcases sortedGroups_complete records r hr with ⟨g, hg, _, hrg⟩
        have h2 := h1.2 g hg
        rcases hx : g.2 with _ | ⟨a, b⟩
        · rw [hx] at hrg
          cases hrg
        · rw [hx] at h2
          cases h2
  · have heq : takePolicy records = buildTake latest (sortedGroups records) := by
      unfold takePolicy
      rw [hgl]
    have hserials := buildTake_serials latest (sortedGroups records)
      (fun g hg => ⟨(sortedGroups_props records g hg).1,
        fun f hf => ((sortedGroups_props records g hg).2.1 f hf).1⟩)
    rw [heq, hserials]
    refine ⟨sortedGroups_keys_nodup records, ?_⟩
    intro srl
    constructor
    · intro h
      rcases List.mem_map.mp h with ⟨g, hg, hkey⟩
      have hprops := sortedGroups_props records g hg
      rcases hx : g.2 with _ | ⟨a, b⟩
      · exact absurd hx hprops.1
      · have ha : a ∈ g.2 := by
          rw [hx]
          exact List.mem_cons_self _ _
        have h2 := hprops.2.1 a ha
        exact List.mem_map.mpr ⟨a, h2.2, by rw [h2.1, hkey]⟩
    · intro h
      rcases List.mem_map.mp h with ⟨r, hr, hsr⟩
      rcases sortedGroups_complete records r hr with ⟨g, hg, hkey, _⟩
      exact List.mem_map.mpr ⟨g, hg, by rw [hkey, hsr]⟩

/-- Witness for C3 at a concrete catalog: cameras a (records at 0 and 100),
b (record at 98), c (record at 50); global latest 100; a and b are selected
within tolerance, c falls back to its own latest with the substitution
flag. -/
theorem take_policy_spec_example :
    takePolicy [⟨"a", 0⟩, ⟨"a", 100⟩, ⟨"b", 98⟩, ⟨"c", 50⟩] =
      [(⟨"a", 100⟩, false), (⟨"b", 98⟩, false), (⟨"c", 50⟩, true)] ∧
    (∃ latest : ℤ,
      globalLatestAux none
        (sortedGroups [⟨"a", 0⟩, ⟨"a", 100⟩, ⟨"b", 98⟩, ⟨"c", 50⟩]) = some latest ∧
      (∃ r ∈ ([⟨"a", 0⟩, ⟨"a", 100⟩, ⟨"b", 98⟩, ⟨"c", 50⟩] : List MediaRecord),
        r.time = latest) ∧
      (∀ r ∈ ([⟨"a", 0⟩, ⟨"a", 100⟩, ⟨"b", 98⟩, ⟨"c", 50⟩] : List MediaRecord),
        r.time ≤ latest) ∧
      (∀ p ∈ takePolicy [⟨"a", 0⟩, ⟨"a", 100⟩, ⟨"b", 98⟩, ⟨"c", 50⟩],
        p.1 ∈ ([⟨"a", 0⟩, ⟨"a", 100⟩, ⟨"b", 98⟩, ⟨"c", 50⟩] : List MediaRecord) ∧
        (p.2 = false →
          |p.1.time - latest| ≤ 5 ∧
          ∀ r ∈ ([⟨"a", 0⟩, ⟨"a", 100⟩, ⟨"b", 98⟩, ⟨"c", 50⟩] : List MediaRecord),
            r.serial = p.1.serial →
              |p.1.time - latest| ≤ |r.time - latest|) ∧
        (p.2 = true →
          (∀ r ∈ ([⟨"a", 0⟩, ⟨"a", 100⟩, ⟨"b", 98⟩, ⟨"c", 50⟩] : List MediaRecord),
            r.serial = p.1.serial → 5 < |r.time - latest|) ∧
          (∀ r ∈ ([⟨"a", 0⟩, ⟨"a", 100⟩, ⟨"b", 98⟩, ⟨"c", 50⟩] : List MediaRecord),
            r.serial = p.1.serial → r.time ≤ p.1.time))) ∧
      ((takePolicy [⟨"a", 0⟩, ⟨"a", 100⟩, ⟨"b", 98⟩, ⟨"c", 50⟩]).map
        (fun p => p.1.serial)).Nodup) :=
  ⟨by decide, take_policy_spec _ (by decide)⟩

/-- Witness for C8: camera c's record at 50 is far from the global latest
100, yet "c" still appears (exactly once) among the take's serials. -/
theorem take_policy_covers_example :
    (((takePolicy [⟨"a", 0⟩, ⟨"a", 100⟩, ⟨"b", 98⟩, ⟨"c", 50⟩]).map
        (fun p => p.1.serial)).Nodup) ∧
    ("c" ∈ (takePolicy [⟨"a", 0⟩, ⟨"a", 100⟩, ⟨"b", 98⟩, ⟨"c", 50⟩]).map
        (fun p => p.1.serial)) :=
  ⟨(take_policy_covers _).1,
   ((take_policy_covers _).2 "c").mpr (by decide)⟩

/-! ## Grid planners

`export_grid` in `gopro_sync.py` (lines 180–218) lays `n` sources on a
dynamic square-ish grid with no filler; `export_grid` in `06.gopro_sync.py`
(lines 180–246) uses a fixed 3×3 canvas whose unused positions are black
filler tiles.  Python's `//` and `int(x * 9 / 16)` on these values are
natural-number division. -/

inductive Tile where
  | video : Nat → Tile
  | filler : Tile
deriving DecidableEq

structure GridPlan where
  cols : Nat
  rows : Nat
  tileW : Nat
  tileH : Nat
  tiles : List Tile
deriving DecidableEq

/-- `math.ceil(math.sqrt n)` (the float square root is exact on this
integer range). -/
def ceilSqrt (n : Nat) : Nat :=
  if Nat.sqrt n * Nat.sqrt n = n then Nat.sqrt n else Nat.sqrt n + 1

def dynamicGrid (n : Nat) : GridPlan :=
  let cols := ceilSqrt n
  let rows := (n + cols - 1) / cols
  let tileW := max 64 (1920 / cols)
  let tileH := tileW * 9 / 16
  ⟨cols, rows, tileW, tileH, (List.range n).map Tile.video⟩

def fixedGrid (n : Nat) : GridPlan :=
  let tileW := 1920 / 3
  let tileH := tileW * 9 / 16
  ⟨3, 3, tileW, tileH,
    (List.range 9).map fun p => if p < n then Tile.video p else Tile.filler⟩

theorem ceilSqrt_sq_ge (n : Nat) : n ≤ ceilSqrt n * ceilSqrt n := by
  unfold ceilSqrt
  split_ifs with h
  · omega
  · have h2 := Nat.lt_succ_sqrt n
    simp only [Nat.succ_eq_add_one] at h2
    omega

theorem ceilSqrt_le (n c : Nat) (hc : n ≤ c * c) : ceilSqrt n ≤ c := by
  have h1 : Nat.sqrt n ≤ c := by
    have h2 := Nat.sqrt_le_sqrt hc
    rwa [Nat.sqrt_eq] at h2
  unfold ceilSqrt
  split_ifs with h
  · exact h1
  · by_contra hcon
    push_neg at hcon
    have hceq : c = Nat.sqrt n := by omega
    have h4 := Nat.sqrt_le n
    apply h
    have h5 : n ≤ Nat.sqrt n * Nat.sqrt n := by
      rw [← hceq]
      exact hc
    omega

theorem ceilSqrt_pos (n : Nat) (hn : 1 ≤ n) : 1 ≤ ceilSqrt n := by
  unfold ceilSqrt
  split_ifs with h
  · exact Nat.sqrt_pos.mpr hn
  · omega

theorem le_mul_ceilDiv (n d : Nat) (hd : 0 < d) : n ≤ d * ((n + d - 1) / d) := by
  have h1 := Nat.div_add_mod (n + d - 1) d
  have h2 := Nat.mod_lt (n + d - 1) hd
  omega

theorem ceilDiv_le (n d r : Nat) (hd : 0 < d) (h : n ≤ d * r) :
    (n + d - 1) / d ≤ r := by
  rw [Nat.div_le_iff_le_mul_add_pred hd]
  omega

theorem fixedGrid_filler_count (n : Nat) :
    (fixedGrid n).tiles.count Tile.filler = 9 - n := by
  show ((List.range 9).map fun p =>
    if p < n then Tile.video p else Tile.filler).count Tile.filler = 9 - n
  rcases Nat.lt_or_ge n 9 with h | h
  · interval_cases n <;> decide
  · have hall : ∀ p ∈ List.range 9,
        (if p < n then Tile.video p else Tile.filler) = Tile.video p := by
      intro p hp
      have hp9 := List.mem_range.mp hp
      rw [if_pos (by omega)]
    rw [List.map_congr_left hall]
    have hz : ((List.range 9).map Tile.video).count Tile.filler = 0 := by
      rw [List.count_eq_zero]
      intro hmem
      rcases List.mem_map.mp hmem with ⟨i, _, hEq⟩
      exact Tile.noConfusion hEq
    omega

/-- **C6 (amended).** For every `n ≥ 1` the dynamic planner uses
`ceil(sqrt n)` columns (the least `c` with `c² ≥ n`) and `ceil(n / cols)`
rows (the least `r` with `cols·r ≥ n`), exactly `n` tiles and no filler;
the fixed planner always has 9 tiles of which `9 − n` are black filler and
tile width `canvas/cols`.  Tile height is `⌊tileW·9/16⌋` in both.  The
dynamic tile width is `max(64, canvas/cols)` — equal to `canvas/cols`
whenever `cols ≤ 30`, but clamped to 64 for very wide grids (see
`dynamic_tile_width_clamped`). -/
theorem grid_planners_spec (n : Nat) (hn : 1 ≤ n) :
    (n ≤ (dynamicGrid n).cols * (dynamicGrid n).cols ∧
     ∀ c : Nat, n ≤ c * c → (dynamicGrid n).cols ≤ c) ∧
    (n ≤ (dynamicGrid n).cols * (dynamicGrid n).rows ∧
     ∀ r : Nat, n ≤ (dynamicGrid n).cols * r → (dynamicGrid n).rows ≤ r) ∧
    (dynamicGrid n).tiles.length = n ∧
    (∀ t ∈ (dynamicGrid n).tiles, t ≠ Tile.filler) ∧
    (dynamicGrid n).tileW = max 64 (1920 / (dynamicGrid n).cols) ∧
    ((dynamicGrid n).cols ≤ 30 →
      (dynamicGrid n).tileW = 1920 / (dynamicGrid n).cols) ∧
    (dynamicGrid n).tileH = (dynamicGrid n).tileW * 9 / 16 ∧
    (fixedGrid n).tiles.length = 9 ∧
    (fixedGrid n).tiles.count Tile.filler = 9 - n ∧
    (fixedGrid n).tileW = 1920 / (fixedGrid n).cols ∧
    (fixedGrid n).tileH = (fixedGrid n).tileW * 9 / 16 := by
  have hcols : (dynamicGrid n).cols = ceilSqrt n := rfl
  have hcpos : 0 < ceilSqrt n := ceilSqrt_pos n hn
  refine ⟨⟨?_, ?_⟩, ⟨?_, ?_⟩, ?_, ?_, rfl, ?_, rfl, ?_, ?_, rfl, rfl⟩
  · rw [hcols]
    exact ceilSqrt_sq_ge n
  · intro c hc
    rw [hcols]
    exact ceilSqrt_le n c hc
  · show n ≤ ceilSqrt n * ((n + ceilSqrt n - 1) / ceilSqrt n)
    exact le_mul_ceilDiv n (ceilSqrt n) hcpos
  · intro r hr
    show (n + ceilSqrt n - 1) / ceilSqrt n ≤ r
    exact ceilDiv_le n (ceilSqrt n) r hcpos hr
  · show ((List.range n).map Tile.video).length = n
    simp
  · intro t ht
    rcases List.mem_map.mp ht with ⟨i, _, hEq⟩
    rw [← hEq]
    exact fun hcon => Tile.noConfusion hcon
  · intro hle
    rw [hcols] at hle
    show max 64 (1920 / ceilSqrt n) = 1920 / ceilSqrt n
    have h64 : 64 ≤ 1920 / ceilSqrt n := by
      have h2 : 1920 / 30 ≤ 1920 / ceilSqrt n := Nat.div_le_div_left hle hcpos
      omega
    exact max_eq_right h64
  · show ((List.range 9).map fun p =>
      if p < n then Tile.video p else Tile.filler).length = 9
    simp
  · exact fixedGrid_filler_count n

/-- Witness for C6: `n = 4` gives a 2×2 dynamic grid of 960×540 tiles with
no filler; `n = 5` gives 3 columns × 2 rows with exactly 5 tiles; the fixed
planner at `n = 4` has 9 tiles, 5 of them filler. -/
theorem grid_planners_spec_example :
    (1 ≤ 5) ∧
    (dynamicGrid 4).cols = 2 ∧ (dynamicGrid 4).rows = 2 ∧
    (dynamicGrid 4).tileW = 960 ∧ (dynamicGrid 4).tileH = 540 ∧
    (dynamicGrid 5).cols = 3 ∧ (dynamicGrid 5).rows = 2 ∧
    (dynamicGrid 5).tiles.length = 5 ∧
    (∀ t ∈ (dynamicGrid 5).tiles, t ≠ Tile.filler) ∧
    (fixedGrid 4).tiles.length = 9 ∧
    (fixedGrid 4).tiles.count Tile.filler = 5 := by
  have hs4 : Nat.sqrt 4 = 2 := by
    symm
    rw [Nat.eq_sqrt]
    norm_num
  have hs5 : Nat.sqrt 5 = 2 := by
    symm
    rw [Nat.eq_sqrt]
    norm_num
  have hc4 : ceilSqrt 4 = 2 := by
    unfold ceilSqrt
    rw [hs4]
    norm_num
  have hc5 : ceilSqrt 5 = 3 := by
    unfold ceilSqrt
    rw [hs5]
    norm_num
  refine ⟨by norm_num, ?_, ?_, ?_, ?_, ?_, ?_,
    (grid_planners_spec 5 (by norm_num)).2.2.1,
    (grid_planners_spec 5 (by norm_num)).2.2.2.1,
    by decide, by decide⟩
  · show ceilSqrt 4 = 2
    exact hc4
  · show (4 + ceilSqrt 4 - 1) / ceilSqrt 4 = 2
    rw [hc4]
  · show max 64 (1920 / ceilSqrt 4) = 960
    rw [hc4]
    omega
  · show max 64 (1920 / ceilSqrt 4) * 9 / 16 = 540
    rw [hc4]
    omega
  · show ceilSqrt 5 = 3
    exact hc5
  · show (5 + ceilSqrt 5 - 1) / ceilSqrt 5 = 2
    rw [hc5]

/-- Counterexample to C6 as stated: at `n = 901` the dynamic planner has
`ceil(sqrt 901) = 31` columns, and the tile width is clamped to the 64-pixel
minimum instead of `1920 / 31 = 61` — so "tile width = canvas width /
columns" does not hold for every `n ≥ 1`. -/
theorem dynamic_tile_width_clamped :
    (dynamicGrid 901).cols = 31 ∧
    (dynamicGrid 901).tileW = 64 ∧
    1920 / (dynamicGrid 901).cols = 61 ∧
    (dynamicGrid 901).tileW ≠ 1920 / (dynamicGrid 901).cols := by
  have hsqrt : Nat.sqrt 901 = 30 := by
    symm
    rw [Nat.eq_sqrt]
    norm_num
  have hcols : (dynamicGrid 901).cols = 31 := by
    show ceilSqrt 901 = 31
    unfold ceilSqrt
    rw [hsqrt]
    norm_num
  refine ⟨hcols, ?_, ?_, ?_⟩
  · show max 64 (1920 / ceilSqrt 901) = 64
    have : ceilSqrt 901 = 31 := hcols
    rw [this]
    omega
  · rw [hcols]
  · rw [hcols]
    show max 64 (1920 / ceilSqrt 901) ≠ 1920 / 31
    have : ceilSqrt 901 = 31 := hcols
    rw [this]
    omega

/-! ## Video discovery — `discover_videos` (gopro_sync.py lines 88–116)

The glob results (one list of path strings, possibly containing the same
file once per matching pattern) are sorted — Python compares strings
lexicographically by code point, `lexLe` — then deduplicated by
`os.path.normcase(os.path.abspath(f))`, modelled as lowercasing (`lowerStr`,
its effect on Windows, with paths taken as already absolute), keeping the
first occurrence.  With a requested count the first `k` distinct files are
returned (error if fewer exist); with no count the whole distinct list
(error if empty). -/

def lexLe : List Char → List Char → Bool
  | [], _ => true
  | _ :: _, [] => false
  | a :: as, b :: bs =>
    if a.toNat < b.toNat then true
    else if a.toNat = b.toNat then lexLe as bs
    else false

def pathLe (a b : String) : Prop := lexLe a.toList b.toList = true

instance : DecidableRel pathLe :=
  fun a b => inferInstanceAs (Decidable (lexLe a.toList b.toList = true))

theorem lexLe_total : ∀ a b : List Char, lexLe a b = true ∨ lexLe b a = true := by
  intro a
  induction a with
  | nil => intro b; left; rfl
  | cons x xs ih =>
    intro b
    cases b with
    | nil => right; rfl
    | cons y ys =>
      simp only [lexLe]
      rcases Nat.lt_trichotomy x.toNat y.toNat with h | h | h
      · left
        rw [if_pos h]
      · rcases ih ys with h2 | h2
        · left
          rw [if_neg (by omega), if_pos h]
          exact h2
        · right
          rw [if_neg (by omega), if_pos h.symm]
          exact h2
      · right
        rw [if_pos h]

theorem lexLe_trans :
    ∀ a b c : List Char, lexLe a b = true → lexLe b c = true →
      lexLe a c = true := by
  intro a
  induction a with
  | nil => intro b c _ _; rfl
  | cons x xs ih =>
    intro b c hab hbc
    cases b with
    | nil => simp [lexLe] at hab
    | cons y ys =>
      cases c with
      | nil => simp [lexLe] at hbc
      | cons z zs =>
        simp only [lexLe] at hab hbc ⊢
        have hab2 : x.toNat < y.toNat ∨ (x.toNat = y.toNat ∧ lexLe xs ys = true) := by
          by_cases h1 : x.toNat < y.toNat
          · exact Or.inl h1
          · rw [if_neg h1] at hab
            by_cases h2 : x.toNat = y.toNat
            · rw [if_pos h2] at hab
              exact Or.inr ⟨h2, hab⟩
            · rw [if_neg h2] at hab
              cases hab
        have hbc2 : y.toNat < z.toNat ∨ (y.toNat = z.toNat ∧ lexLe ys zs = true) := by
          by_cases h1 : y.toNat < z.toNat
          · exact Or.inl h1
          · rw [if_neg h1] at hbc
            by_cases h2 : y.toNat = z.toNat
            · rw [if_pos h2] at hbc
              exact Or.inr ⟨h2, hbc⟩
            · rw [if_neg h2] at hbc
              cases hbc
        rcases hab2 with h1 | ⟨h1, h1b⟩ <;> rcases hbc2 with h2 | ⟨h2, h2b⟩
        · rw [if_pos (by omega)]
        · rw [if_pos (by omega)]
        · rw [if_pos (by omega)]
        · rw [if_neg (by omega), if_pos (by omega)]
          exact ih ys zs h1b h2b

instance : IsTotal String pathLe := ⟨fun a b => lexLe_total a.toList b.toList⟩

instance : IsTrans String pathLe :=
  ⟨fun a b c hab hbc => lexLe_trans a.toList b.toList c.toList hab hbc⟩

/-- `os.path.normcase`: lowercase the path (Windows behaviour). -/
def lowerStr (s : String) : String := String.mk (s.toList.map Char.toLower)

def dedupCaseless (seen : List String) : List String → List String
  | [] => []
  | f :: fs =>
    if lowerStr f ∈ seen then dedupCaseless seen fs
    else f :: dedupCaseless (lowerStr f :: seen) fs

def discoveredList (files : List String) : List String :=
  dedupCaseless [] (List.insertionSort pathLe files)

def discover_videos (files : List String) (expected : Option Nat) :
    Except String (List String) :=
  match expected with
  | some k =>
    if (discoveredList files).length < k then Except.error "too few videos"
    else Except.ok ((discoveredList files).take k)
  | none =>
    if discoveredList files = [] then Except.error "no videos found"
    else Except.ok (discoveredList files)

theorem dedupCaseless_sublist :
    ∀ (l seen : List String), (dedupCaseless seen l).Sublist l := by
  intro l
  induction l with
  | nil => intro seen; exact List.Sublist.refl []
  | cons f fs ih =>
    intro seen
    simp only [dedupCaseless]
    by_cases h : lowerStr f ∈ seen
    · rw [if_pos h]
      exact (ih seen).cons f
    · rw [if_neg h]
      exact (ih (lowerStr f :: seen)).cons₂ f

theorem dedupCaseless_nodup :
    ∀ (l seen : List String),
      (∀ g ∈ dedupCaseless seen l, lowerStr g ∉ seen) ∧
      ((dedupCaseless seen l).map lowerStr).Nodup := by
  intro l
  induction l with
  | nil =>
    intro seen
    exact ⟨(by intro g hg; cases hg), List.nodup_nil⟩
  | cons f fs ih =>
    intro seen
    simp only [dedupCaseless]
    by_cases h : lowerStr f ∈ seen
    · rw [if_pos h]
      exact ih seen
    · rw [if_neg h]
      constructor
      · intro g hg
        rcases List.mem_cons.mp hg with h1 | h1
        · rw [h1]
          exact h
        · have h2 := (ih (lowerStr f :: seen)).1 g h1
          intro h3
          exact h2 (List.mem_cons_of_mem _ h3)
      · rw [List.map_cons]
        refine List.Nodup.cons ?_ (ih (lowerStr f :: seen)).2
        intro hmem
        rcases List.mem_map.mp hmem with ⟨g, hg, hEq⟩
        have h2 := (ih (lowerStr f :: seen)).1 g hg
        apply h2
        rw [hEq]
        exact List.mem_cons_self _ _

theorem dedupCaseless_covers :
    ∀ (l seen : List String), ∀ f ∈ l,
      lowerStr f ∈ seen ∨ ∃ g ∈ dedupCaseless seen l, lowerStr g = lowerStr f := by
  intro l
  induction l with
  | nil => intro seen f hf; cases hf
  | cons x xs ih =>
    intro seen f hf
    simp only [dedupCaseless]
    by_cases h : lowerStr x ∈ seen
    · rw [if_pos h]
      rcases List.mem_cons.mp hf with h1 | h1
      · left
        rw [h1]
        exact h
      · exact ih seen f h1
    · rw [if_neg h]
      rcases List.mem_cons.mp hf with h1 | h1
      · right
        exact ⟨x, List.mem_cons_self _ _, by rw [h1]⟩
      · rcases ih (lowerStr x :: seen) f h1 with h2 | ⟨g, hg, hEq⟩
        · rcases List.mem_cons.mp h2 with h3 | h3
          · right
            exact ⟨x, List.mem_cons_self _ _, h3.symm⟩
          · left
            exact h3
        · right
          exact ⟨g, List.mem_cons_of_mem _ hg, hEq⟩

/-- **C10.** Video discovery sorts the matches, drops case-insensitive
duplicates (keeping one representative per case-folded path, each taken
from the input), and: with a requested count `k` returns exactly the first
`k` distinct files when at least `k` exist and errors when fewer exist;
with no count returns the whole distinct list, erroring only when it is
empty. -/
theorem discover_videos_spec (files : List String) (k : Nat) :
    (k ≤ (discoveredList files).length →
      discover_videos files (some k) = Except.ok ((discoveredList files).take k) ∧
      ((discoveredList files).take k).length = k) ∧
    ((discoveredList files).length < k →
      discover_videos files (some k) = Except.error "too few videos") ∧
    (discoveredList files ≠ [] →
      discover_videos files none = Except.ok (discoveredList files)) ∧
    (discoveredList files = [] →
      discover_videos files none = Except.error "no videos found") ∧
    List.Sorted pathLe (discoveredList files) ∧
    ((discoveredList files).map lowerStr).Nodup ∧
    (∀ f ∈ files, ∃ g ∈ discoveredList files, lowerStr g = lowerStr f) ∧
    (∀ g ∈ discoveredList files, g ∈ files) := by
  refine ⟨?_, ?_, ?_, ?_, ?_, ?_, ?_, ?_⟩
  · intro hk
    constructor
    · simp only [discover_videos]
      rw [if_neg (by omega)]
    · rw [List.length_take]
      omega
  · intro hk
    simp only [discover_videos]
    rw [if_pos hk]
  · intro hne
    simp only [discover_videos]
    rw [if_neg hne]
  · intro he
    simp only [discover_videos]
    rw [if_pos he]
  · exact List.Pairwise.sublist (dedupCaseless_sublist _ [])
      (List.sorted_insertionSort pathLe files)
  · exact (dedupCaseless_nodup _ []).2
  · intro f hf
    have hf2 : f ∈ List.insertionSort pathLe files :=
      (List.perm_insertionSort pathLe files).mem_iff.mpr hf
    rcases dedupCaseless_covers _ [] f hf2 with h | h
    · cases h
    · exact h
  · intro g hg
    have h1 := (dedupCaseless_sublist
      (List.insertionSort pathLe files) []).subset hg
    exact (List.perm_insertionSort pathLe files).mem_iff.mp h1

/-- Witness for C10: the glob results `["b.mp4", "B.MP4", "a.mp4"]` (the
same file matched by two patterns on a case-insensitive filesystem) sort to
`["B.MP4", "a.mp4", "b.mp4"]`, deduplicate to two distinct files, and the
first 2 are returned. -/
theorem discover_videos_spec_example :
    discoveredList ["b.mp4", "B.MP4", "a.mp4"] = ["B.MP4", "a.mp4"] ∧
    (2 ≤ (discoveredList ["b.mp4", "B.MP4", "a.mp4"]).length) ∧
    discover_videos ["b.mp4", "B.MP4", "a.mp4"] (some 2) =
      Except.ok ((discoveredList ["b.mp4", "B.MP4", "a.mp4"]).take 2) ∧
    ((discoveredList ["b.mp4", "B.MP4", "a.mp4"]).take 2).length = 2 :=
  ⟨by decide, by decide,
   ((discover_videos_spec ["b.mp4", "B.MP4", "a.mp4"] 2).1 (by decide)).1,
   ((discover_videos_spec ["b.mp4", "B.MP4", "a.mp4"] 2).1 (by decide)).2⟩

end MMMocap
